import Mathlib

/-!
# Verification of the ginger-lib prime-field engine and degree-12 tower

This file gives a shallow embedding of the Montgomery-form prime-field
arithmetic generated by `impl_Fp!` (src/algebra/src/fields/macros.rs) and of
the degree-12 tower code (src/algebra/src/fields/models/fp12_2over3over2.rs),
together with proofs of the specified properties.

A `BigInteger` of `N` 64-bit limbs is modelled as a natural number below
`W = 2 ^ (64 * N)`; its wrapping operations `add_nocarry`, `sub_noborrow`,
`mul2`, `div2` become arithmetic modulo `W`.  A prime-field element is the
stored (Montgomery-form) limb value, a natural number.

The bodies of `impl_field_mul_assign!`, `impl_field_into_repr!` and of the
`BigInteger` byte codec are not part of the supplied sources; the definitions
that stand in for them are marked `Modelled from the spec:` and follow the
specification text (Montgomery REDC returning `a·b·R⁻¹ mod p`, REDC by one
for `into_repr`, fixed-width little-endian bytes).
-/

namespace Ginger

/-- The compile-time parameter set of a concrete prime field
(`FpParameters` in the source): the limb count `N`, the prime modulus `p`
and a Montgomery constant.  `rInv` is the inverse of `R = 2^(64N) mod p`
modulo `p`, which exists because the modulus is an odd prime; it is the
constant implicitly used by Montgomery reduction.  `hfit` records the
requirement, stated in the specification, that `2·MODULUS` fits the backing
width (so that limb addition of two valid elements cannot carry out). -/
structure MontParams where
  N : ℕ
  p : ℕ
  rInv : ℕ
  hN : 0 < N
  hp : p.Prime
  hfit : 2 * p ≤ 2 ^ (64 * N)
  hrInv : 2 ^ (64 * N) % p * rInv % p = 1

namespace MontParams

/-- Backing width of the fixed-width `BigInteger`: `2^(64·N)`. -/
def W (P : MontParams) : ℕ := 2 ^ (64 * P.N)

/-- The Montgomery constant `R = 2^(64N) mod p` (`P::R` in the source);
the stored value of `one()`. -/
def R (P : MontParams) : ℕ := P.W % P.p

/-- The Montgomery constant `R² mod p` (`P::R2` in the source). -/
def R2 (P : MontParams) : ℕ := P.R * P.R % P.p

/-- `BigInteger::add_nocarry`: fixed-width addition, discarding any carry. -/
def add_nocarry (P : MontParams) (x y : ℕ) : ℕ := (x + y) % P.W

/-- `BigInteger::sub_noborrow`: fixed-width wrapping subtraction. -/
def sub_noborrow (P : MontParams) (x y : ℕ) : ℕ := (x + P.W - y) % P.W

/-- `Fp::is_valid`: the stored limb value is below the modulus. -/
def is_valid (P : MontParams) (a : ℕ) : Prop := a < P.p

instance (P : MontParams) (a : ℕ) : Decidable (P.is_valid a) := by
  unfold is_valid; infer_instance

/-- `Fp::reduce`: conditionally subtract the modulus once. -/
def reduce (P : MontParams) (a : ℕ) : ℕ :=
  if P.is_valid a then a else P.sub_noborrow a P.p

/-- `AddAssign for Fp`: limb add without carry, then reduce. -/
def add_assign (P : MontParams) (a b : ℕ) : ℕ := P.reduce (P.add_nocarry a b)

/-- `Fp::double_in_place`: `mul2` (left shift by one bit), then reduce. -/
def double_in_place (P : MontParams) (a : ℕ) : ℕ := P.reduce (2 * a % P.W)

/-- `SubAssign for Fp`: if `other > self`, first add the modulus to `self`,
then subtract without borrow. -/
def sub_assign (P : MontParams) (a b : ℕ) : ℕ :=
  P.sub_noborrow (if b > a then P.add_nocarry a P.p else a) b

/-- `Neg for Fp`: zero maps to itself, otherwise `MODULUS - a`. -/
def neg (P : MontParams) (a : ℕ) : ℕ :=
  if a = 0 then a else P.sub_noborrow P.p a

/-- Modelled from the spec: the body of `impl_field_mul_assign!` is not in
the supplied sources.  Per the specification, Montgomery multiplication
returns the canonical representative of `a·b·R⁻¹ mod p`. -/
def mul_assign (P : MontParams) (a b : ℕ) : ℕ := a * b * P.rInv % P.p

/-- `Fp::square_in_place` (`impl_field_square_in_place!` is not in the
supplied sources; per the specification it is algebraically `mul(a,a)`). -/
def square_in_place (P : MontParams) (a : ℕ) : ℕ := P.mul_assign a a

/-- Stored value of `Fp::one()`, namely `P::R`. -/
def one (P : MontParams) : ℕ := P.R

/-- The `div2`-with-conditional-`add_nocarry` step used on the field
co-factors `b`, `c` inside `inverse`: if the value is odd, add the (odd)
modulus first so the halving is exact. -/
def halve (P : MontParams) (b : ℕ) : ℕ :=
  if b % 2 = 0 then b / 2 else P.add_nocarry b P.p / 2

/-- One flattened step of the binary-extended-Euclidean loop of
`Fp::inverse` (Guajardo–Kumar–Paar–Pelzl Algorithm 16).  The source's outer
`while u != one && v != one` loop with its two inner halving loops and the
final subtraction step is flattened into a single step function; the checks
are performed in the same priority order (halve `u` while even, then halve
`v` while even, then subtract the smaller of `u,v` from the larger), so the
returned co-factor is identical to the nested-loop form.  `fuel` bounds the
number of steps; `u + v` strictly decreases at every step taken on the
states reachable from a valid start, so the fuel `u₀ + v₀` used by
`inverse` is never exhausted (proved below). -/
def invLoop (P : MontParams) : ℕ → ℕ → ℕ → ℕ → ℕ → Option ℕ
  | 0, _, _, _, _ => none
  | fuel + 1, u, v, b, c =>
    if u = 1 then some b
    else if v = 1 then some c
    else if u % 2 = 0 then P.invLoop fuel (u / 2) v (P.halve b) c
    else if v % 2 = 0 then P.invLoop fuel u (v / 2) b (P.halve c)
    else if v < u then P.invLoop fuel (u - v) v (P.sub_assign b c) c
    else P.invLoop fuel u (v - u) b (P.sub_assign c b)

/-- `Fp::inverse`: `None` on zero, otherwise the binary GCD loop started at
`u = a`, `v = MODULUS`, `b = R²`, `c = 0`. -/
def inverse (P : MontParams) (a : ℕ) : Option ℕ :=
  if a = 0 then none else P.invLoop (a + P.p) a P.p P.R2 0

/-- `Div for Fp`: multiply by the unwrapped inverse of the divisor.  The
source `unwrap`s the `Option`; a panic on a missing inverse is modelled as
`none`. -/
def div (P : MontParams) (a b : ℕ) : Option ℕ :=
  (P.inverse b).map fun i => P.mul_assign a i

/-- `PrimeField::from_repr`: validate `r < MODULUS` and enter Montgomery
form by multiplying with `R²`; out-of-range input silently becomes zero. -/
def from_repr (P : MontParams) (r : ℕ) : ℕ :=
  if P.is_valid r then P.mul_assign r P.R2 else 0

/-- Modelled from the spec: the body of `impl_field_into_repr!` is not in
the supplied sources.  Per the specification it is Montgomery REDC with
second operand `1`, producing the canonical ordinary integer
`a·R⁻¹ mod p`. -/
def into_repr (P : MontParams) (a : ℕ) : ℕ := a * P.rInv % P.p

/-- `Ord for Fp`: compare the canonical (non-Montgomery) representatives. -/
def cmp (P : MontParams) (a b : ℕ) : Ordering :=
  compare (P.into_repr a) (P.into_repr b)

/-- `char::to_digit(10)`: the numeric value of a decimal digit character. -/
def toDigit10 (ch : Char) : Option ℕ :=
  if 48 ≤ ch.toNat ∧ ch.toNat ≤ 57 then some (ch.toNat - 48) else none

/-- The character loop of `FromStr::from_str`: `first` is the
`first_digit` flag, `res` the accumulator.  Each digit performs
`res.mul_assign(&ten); res.add_assign(&from_repr(digit))` with
`ten = from_repr(10)`; a non-digit, or a digit `0` while `first` is set,
aborts with an error. -/
def fromStrLoop (P : MontParams) : List Char → Bool → ℕ → Option ℕ
  | [], _, res => some res
  | ch :: rest, first, res =>
    match toDigit10 ch with
    | some d =>
      if first = true ∧ d = 0 then none
      else
        P.fromStrLoop rest false
          (P.add_assign (P.mul_assign res (P.from_repr 10)) (P.from_repr d))
    | none => none

/-- `FromStr::from_str` on the character list of the input string: empty
input is rejected, the literal string `"0"` is zero, otherwise the digit
loop runs and the result is rejected if it is not valid.  The unit error
`Err(())` is modelled as `none`. -/
def from_str (P : MontParams) (s : List Char) : Option ℕ :=
  if s = [] then none
  else if s = [Char.ofNat 48] then some 0
  else
    match P.fromStrLoop s true 0 with
    | none => none
    | some res => if P.is_valid res then some res else none

/-- Value of a little-endian byte list (`Modelled from the spec:` the
`BigInteger` byte codec is not in the supplied sources; the specification
fixes a fixed-width `8·N`-byte little-endian encoding). -/
def leVal : List ℕ → ℕ
  | [] => 0
  | b :: bs => b + 256 * leVal bs

/-- The `k` little-endian base-256 digits of `x` (`Modelled from the
spec:` companion encoder of `leVal`). -/
def leBytes : ℕ → ℕ → List ℕ
  | 0, _ => []
  | k + 1, x => x % 256 :: leBytes k (x / 256)

/-- `ToBytes::write`: emit the canonical representative `into_repr(a)` as
`8·N` little-endian bytes. -/
def write (P : MontParams) (a : ℕ) : List ℕ := leBytes (8 * P.N) (P.into_repr a)

/-- `FromBytes::read`: decode the fixed-width integer; zero reads back as
the zero element, otherwise the value goes through `from_repr`, and a
resulting zero (which only happens for an out-of-range encoding) is the
`InvalidData` error, modelled as `none`. -/
def read (P : MontParams) (bytes : List ℕ) : Option ℕ :=
  let b := leVal bytes
  if b = 0 then some 0
  else
    let f := P.from_repr b
    if f = 0 then none else some f

end MontParams

/-! ## The characteristic-mod-6 gate (fp12_2over3over2.rs) -/

/-- Little-endian value of a 64-bit limb slice (`BigInteger::as_ref`). -/
def limbsVal : List ℕ → ℕ
  | [] => 0
  | l :: ls => l + 2 ^ 64 * limbsVal ls

/-- One iteration of the inner bit loop of
`characteristic_square_mod_6_is_one`: extract bit `i` of the limb, give it
an alternating sign, add it to the running value and take the Rust `%`
(truncated remainder, `Int.tmod`) by 3. -/
def bitStep (limb : ℕ) (acc : ℤ) (i : ℕ) : ℤ :=
  Int.tmod (acc + if i % 2 = 0 then (((limb >>> i) &&& 1 : ℕ) : ℤ) else -(((limb >>> i) &&& 1 : ℕ) : ℤ)) 3

/-- `characteristic_square_mod_6_is_one`: the bit-by-bit alternating-sum
test of the characteristic mod 3 combined with the parity of the lowest
limb (`characteristic[0] % 2`; the source indexes the first limb, so it is
only called on nonempty slices — the model uses `headI`). -/
def characteristic_square_mod_6_is_one (characteristic : List ℕ) : Bool :=
  let m3 := characteristic.foldl (fun acc limb => (List.range 64).foldl (bitStep limb) acc) 0
  decide (m3 ≠ 0) && decide (characteristic.headI % 2 = 1)

/-! ## The extension tower

The tower code in the repository is generic: `Fp12<P>` is a
`QuadExtField` over `Fp6` (a cubic extension of `Fp2`, itself a quadratic
extension of the prime field).  Only `fp12_2over3over2.rs` is among the
supplied sources; the generic quadratic-extension engine
(`quadratic_extension.rs`) and the cubic `fp6_3over2.rs` are modelled from
the spec, as noted on each definition.  The embedding is generic over a
commutative base ring `K` (playing the role of `Fp2`) with a nonresidue
constant, mirroring the genericity of the source. -/

/-- A quadratic-extension element `c0 + c1·X`, `X² = nr` (the pair layout
of `QuadExtField`; the nonresidue is a phantom type index, mirroring the
marker-parameter design of the source). -/
@[ext]
structure Quad (R : Type) (nr : R) where
  c0 : R
  c1 : R
deriving DecidableEq

/-- A cubic-extension element `c0 + c1·X + c2·X²`, `X³ = nr` (the triple
layout of `Fp6`). -/
@[ext]
structure Cubic (R : Type) (nr : R) where
  c0 : R
  c1 : R
  c2 : R
deriving DecidableEq

namespace Quad

variable {R : Type} {nr : R}

/-- Modelled from the spec: component-wise addition of `QuadExtField`. -/
def add [Add R] (a b : Quad R nr) : Quad R nr := ⟨a.c0 + b.c0, a.c1 + b.c1⟩

/-- Modelled from the spec: Karatsuba multiplication of `QuadExtField` —
`t0 = a0·b0`, `t1 = a1·b1`, `c0 = t0 + nonresidue·t1`,
`c1 = (a0+a1)·(b0+b1) − t0 − t1`. -/
def mul [CommRing R] (a b : Quad R nr) : Quad R nr :=
  ⟨a.c0 * b.c0 + nr * (a.c1 * b.c1),
   (a.c0 + a.c1) * (b.c0 + b.c1) - a.c0 * b.c0 - a.c1 * b.c1⟩

/-- Modelled from the spec: component-wise negation of `QuadExtField`. -/
def neg [Neg R] (a : Quad R nr) : Quad R nr := ⟨-a.c0, -a.c1⟩

/-- Modelled from the spec: the complex-squaring identity of
`QuadExtField::square` — `v0 = c0·c1`,
`c0' = (c0+c1)·(c0+nr·c1) − v0 − nr·v0`, `c1' = 2·v0`. -/
def square [CommRing R] (a : Quad R nr) : Quad R nr :=
  ⟨(a.c0 + a.c1) * (a.c0 + nr * a.c1) - a.c0 * a.c1 - nr * (a.c0 * a.c1),
   a.c0 * a.c1 + a.c0 * a.c1⟩

instance [Add R] : Add (Quad R nr) := ⟨add⟩

instance [Neg R] : Neg (Quad R nr) := ⟨neg⟩

instance [CommRing R] : Mul (Quad R nr) := ⟨mul⟩

instance [Zero R] : Zero (Quad R nr) := ⟨⟨0, 0⟩⟩

instance [Zero R] [One R] : One (Quad R nr) := ⟨⟨1, 0⟩⟩

@[simp] theorem qzero_c0 [Zero R] : (0 : Quad R nr).c0 = 0 := rfl
@[simp] theorem qzero_c1 [Zero R] : (0 : Quad R nr).c1 = 0 := rfl
@[simp] theorem qone_c0 [Zero R] [One R] : (1 : Quad R nr).c0 = 1 := rfl
@[simp] theorem qone_c1 [Zero R] [One R] : (1 : Quad R nr).c1 = 0 := rfl
@[simp] theorem qadd_c0 [Add R] (a b : Quad R nr) : (a + b).c0 = a.c0 + b.c0 := rfl
@[simp] theorem qadd_c1 [Add R] (a b : Quad R nr) : (a + b).c1 = a.c1 + b.c1 := rfl
@[simp] theorem qneg_c0 [Neg R] (a : Quad R nr) : (-a).c0 = -a.c0 := rfl
@[simp] theorem qneg_c1 [Neg R] (a : Quad R nr) : (-a).c1 = -a.c1 := rfl
@[simp] theorem qmul_c0 [CommRing R] (a b : Quad R nr) :
    (a * b).c0 = a.c0 * b.c0 + nr * (a.c1 * b.c1) := rfl
@[simp] theorem qmul_c1 [CommRing R] (a b : Quad R nr) :
    (a * b).c1 = (a.c0 + a.c1) * (b.c0 + b.c1) - a.c0 * b.c0 - a.c1 * b.c1 := rfl

instance [CommRing R] : CommRing (Quad R nr) where
  add_assoc a b c := by ext <;> simp <;> ring
  zero_add a := by ext <;> simp
  add_zero a := by ext <;> simp
  add_comm a b := by ext <;> simp <;> ring
  left_distrib a b c := by ext <;> simp <;> ring
  right_distrib a b c := by ext <;> simp <;> ring
  zero_mul a := by ext <;> simp
  mul_zero a := by ext <;> simp
  mul_assoc a b c := by ext <;> simp <;> ring
  one_mul a := by ext <;> simp
  mul_one a := by ext <;> simp
  neg_add_cancel a := by ext <;> simp
  mul_comm a b := by ext <;> simp <;> ring
  nsmul := nsmulRec
  zsmul := zsmulRec

@[simp] theorem qsub_c0 [CommRing R] (a b : Quad R nr) : (a - b).c0 = a.c0 - b.c0 := by
  rw [sub_eq_add_neg, sub_eq_add_neg]; simp
@[simp] theorem qsub_c1 [CommRing R] (a b : Quad R nr) : (a - b).c1 = a.c1 - b.c1 := by
  rw [sub_eq_add_neg, sub_eq_add_neg]; simp

theorem square_eq [CommRing R] (a : Quad R nr) : square a = a * a := by
  unfold square; ext <;> simp <;> ring

end Quad

namespace Cubic

variable {R : Type} {nr : R}

/-- Modelled from the spec: component-wise addition of the cubic
extension (`fp6_3over2.rs` is not among the supplied sources). -/
def add [Add R] (a b : Cubic R nr) : Cubic R nr :=
  ⟨a.c0 + b.c0, a.c1 + b.c1, a.c2 + b.c2⟩

/-- Modelled from the spec: multiplication in the cubic extension
`R[X]/(X³ − nr)` (schoolbook form; any correct Karatsuba/Toom variant
computes the same ring product). -/
def mul [CommRing R] (a b : Cubic R nr) : Cubic R nr :=
  ⟨a.c0 * b.c0 + nr * (a.c1 * b.c2 + a.c2 * b.c1),
   a.c0 * b.c1 + a.c1 * b.c0 + nr * (a.c2 * b.c2),
   a.c0 * b.c2 + a.c1 * b.c1 + a.c2 * b.c0⟩

/-- Modelled from the spec: component-wise negation. -/
def neg [Neg R] (a : Cubic R nr) : Cubic R nr := ⟨-a.c0, -a.c1, -a.c2⟩

instance [Add R] : Add (Cubic R nr) := ⟨add⟩

instance [Neg R] : Neg (Cubic R nr) := ⟨neg⟩

instance [CommRing R] : Mul (Cubic R nr) := ⟨mul⟩

instance [Zero R] : Zero (Cubic R nr) := ⟨⟨0, 0, 0⟩⟩

instance [Zero R] [One R] : One (Cubic R nr) := ⟨⟨1, 0, 0⟩⟩

@[simp] theorem zero_c0 [Zero R] : (0 : Cubic R nr).c0 = 0 := rfl
@[simp] theorem zero_c1 [Zero R] : (0 : Cubic R nr).c1 = 0 := rfl
@[simp] theorem zero_c2 [Zero R] : (0 : Cubic R nr).c2 = 0 := rfl
@[simp] theorem one_c0 [Zero R] [One R] : (1 : Cubic R nr).c0 = 1 := rfl
@[simp] theorem one_c1 [Zero R] [One R] : (1 : Cubic R nr).c1 = 0 := rfl
@[simp] theorem one_c2 [Zero R] [One R] : (1 : Cubic R nr).c2 = 0 := rfl
@[simp] theorem add_c0 [Add R] (a b : Cubic R nr) : (a + b).c0 = a.c0 + b.c0 := rfl
@[simp] theorem add_c1 [Add R] (a b : Cubic R nr) : (a + b).c1 = a.c1 + b.c1 := rfl
@[simp] theorem add_c2 [Add R] (a b : Cubic R nr) : (a + b).c2 = a.c2 + b.c2 := rfl
@[simp] theorem neg_c0 [Neg R] (a : Cubic R nr) : (-a).c0 = -a.c0 := rfl
@[simp] theorem neg_c1 [Neg R] (a : Cubic R nr) : (-a).c1 = -a.c1 := rfl
@[simp] theorem neg_c2 [Neg R] (a : Cubic R nr) : (-a).c2 = -a.c2 := rfl
@[simp] theorem mul_c0 [CommRing R] (a b : Cubic R nr) :
    (a * b).c0 = a.c0 * b.c0 + nr * (a.c1 * b.c2 + a.c2 * b.c1) := rfl
@[simp] theorem mul_c1 [CommRing R] (a b : Cubic R nr) :
    (a * b).c1 = a.c0 * b.c1 + a.c1 * b.c0 + nr * (a.c2 * b.c2) := rfl
@[simp] theorem mul_c2 [CommRing R] (a b : Cubic R nr) :
    (a * b).c2 = a.c0 * b.c2 + a.c1 * b.c1 + a.c2 * b.c0 := rfl

instance [CommRing R] : CommRing (Cubic R nr) where
  add_assoc a b c := by ext <;> simp <;> ring
  zero_add a := by ext <;> simp
  add_zero a := by ext <;> simp
  add_comm a b := by ext <;> simp <;> ring
  left_distrib a b c := by ext <;> simp <;> ring
  right_distrib a b c := by ext <;> simp <;> ring
  zero_mul a := by ext <;> simp
  mul_zero a := by ext <;> simp
  mul_assoc a b c := by ext <;> simp <;> ring
  one_mul a := by ext <;> simp
  mul_one a := by ext <;> simp
  neg_add_cancel a := by ext <;> simp
  mul_comm a b := by ext <;> simp <;> ring
  nsmul := nsmulRec
  zsmul := zsmulRec

@[simp] theorem sub_c0 [CommRing R] (a b : Cubic R nr) : (a - b).c0 = a.c0 - b.c0 := by
  rw [sub_eq_add_neg, sub_eq_add_neg]; simp
@[simp] theorem sub_c1 [CommRing R] (a b : Cubic R nr) : (a - b).c1 = a.c1 - b.c1 := by
  rw [sub_eq_add_neg, sub_eq_add_neg]; simp
@[simp] theorem sub_c2 [CommRing R] (a b : Cubic R nr) : (a - b).c2 = a.c2 - b.c2 := by
  rw [sub_eq_add_neg, sub_eq_add_neg]; simp

end Cubic

instance {R : Type} {nr : R} [CommRing R] {q : ℕ} [CharP R q] : CharP (Quad R nr) q where
  cast_eq_zero_iff' n := by
    have hc : ∀ m : ℕ, (m : Quad R nr).c0 = (m : R) ∧ (m : Quad R nr).c1 = 0 := by
      intro m
      induction m with
      | zero => simp
      | succ k ih => simp [ih.1, ih.2]
    constructor
    · intro h
      have h0 : (n : Quad R nr).c0 = 0 := by rw [h]; rfl
      rw [(hc n).1] at h0
      exact (CharP.cast_eq_zero_iff R q n).mp h0
    · intro h
      have h0 : ((n : ℕ) : R) = 0 := (CharP.cast_eq_zero_iff R q n).mpr h
      apply Quad.ext
      · rw [(hc n).1, h0]; rfl
      · rw [(hc n).2]; rfl

instance {R : Type} {nr : R} [CommRing R] {q : ℕ} [CharP R q] : CharP (Cubic R nr) q where
  cast_eq_zero_iff' n := by
    have hc : ∀ m : ℕ, (m : Cubic R nr).c0 = (m : R) ∧ (m : Cubic R nr).c1 = 0 ∧
        (m : Cubic R nr).c2 = 0 := by
      intro m
      induction m with
      | zero => simp
      | succ k ih => simp [ih.1, ih.2.1, ih.2.2]
    constructor
    · intro h
      have h0 : (n : Cubic R nr).c0 = 0 := by rw [h]; rfl
      rw [(hc n).1] at h0
      exact (CharP.cast_eq_zero_iff R q n).mp h0
    · intro h
      have h0 : ((n : ℕ) : R) = 0 := (CharP.cast_eq_zero_iff R q n).mpr h
      apply Cubic.ext
      · rw [(hc n).1, h0]; rfl
      · rw [(hc n).2.1]; rfl
      · rw [(hc n).2.2]; rfl

/-! ## The degree-12 field `Fp12` (fp12_2over3over2.rs)

`Fp12<P> = QuadExtField<Fp12ParamsWrapper<P>>`: a quadratic extension of
`Fp6 = Cubic K ξ` whose nonresidue is the constant `(0, 1, 0)` (the
generator `v` of the cubic extension), as required by the source
(`This *must* equal (0, 1, 0)`).  `K` plays the role of `Fp2`. -/

variable (K : Type)

/-- The `Fp12` nonresidue `(0, 1, 0)` of the source. -/
def vgen [CommRing K] (ξ : K) : Cubic K ξ := ⟨0, 1, 0⟩

/-- The degree-12 tower element: a pair of `Fp6` values. -/
abbrev F12 [CommRing K] (ξ : K) := Quad (Cubic K ξ) (vgen K ξ)

/-- Modelled from the spec: `Fp6Params::mul_fp2_by_nonresidue`
(fp6_3over2.rs is not among the supplied sources): multiply an `Fp2`
element by the cubic nonresidue `ξ`. -/
def mul_fp2_by_nonresidue [CommRing K] (ξ : K) (fe : K) : K := ξ * fe

/-- `Fp12Parameters::mul_fp6_by_nonresidue` (from the source): multiply by
the quadratic nonresidue `v`, i.e. shift the coefficients and multiply the
wrapped-around one by `ξ`. -/
def mul_fp6_by_nonresidue [CommRing K] (ξ : K) (fe : Cubic K ξ) : Cubic K ξ :=
  ⟨mul_fp2_by_nonresidue K ξ fe.c2, fe.c0, fe.c1⟩

/-- The Granger–Scott body of `cyclotomic_square` (source lines 56–118),
translated statement by statement: the six `Fp2` coefficients are
extracted, three complex squarings produce `t0..t5`, and the output
coefficients are the fixed linear recombinations.  `fp2_nr` is
`mul_fp2_by_nonresidue`.  In the source, `x.double()` is `x + x`. -/
def cyclotomic_square_body [CommRing K] (ξ : K) (fe : F12 K ξ) : F12 K ξ :=
  let z0 := fe.c0.c0
  let z4 := fe.c0.c1
  let z3 := fe.c0.c2
  let z2 := fe.c1.c0
  let z1 := fe.c1.c1
  let z5 := fe.c1.c2
  let tmp0 := z0 * z1
  let t0 := (z0 + z1) * (z0 + mul_fp2_by_nonresidue K ξ z1) - tmp0 -
    mul_fp2_by_nonresidue K ξ tmp0
  let t1 := tmp0 + tmp0
  let tmp1 := z2 * z3
  let t2 := (z2 + z3) * (z2 + mul_fp2_by_nonresidue K ξ z3) - tmp1 -
    mul_fp2_by_nonresidue K ξ tmp1
  let t3 := tmp1 + tmp1
  let tmp2 := z4 * z5
  let t4 := (z4 + z5) * (z4 + mul_fp2_by_nonresidue K ξ z5) - tmp2 -
    mul_fp2_by_nonresidue K ξ tmp2
  let t5 := tmp2 + tmp2
  let a0 := (t0 - z0) + (t0 - z0) + t0
  let a1 := (t1 + z1) + (t1 + z1) + t1
  let b0 := (mul_fp2_by_nonresidue K ξ t5 + z2) + (mul_fp2_by_nonresidue K ξ t5 + z2) +
    mul_fp2_by_nonresidue K ξ t5
  let b1 := (t4 - z3) + (t4 - z3) + t4
  let c0' := (t2 - z4) + (t2 - z4) + t2
  let c1' := (t3 + z5) + (t3 + z5) + t3
  ⟨⟨a0, c0', b1⟩, ⟨b0, a1, c1'⟩⟩

/-- `Fp12ParamsWrapper::cyclotomic_square` (from the source): if the
characteristic (limb slice) passes the mod-6 gate, run the Granger–Scott
body, otherwise fall back to the generic `square`. -/
def cyclotomic_square [CommRing K] (ξ : K) (characteristic : List ℕ) (fe : F12 K ξ) :
    F12 K ξ :=
  if characteristic_square_mod_6_is_one characteristic then cyclotomic_square_body K ξ fe
  else Quad.square fe

/-! ### Tower helper maps used in the analysis -/

/-- Embedding of `Fp6` into `Fp12`. -/
def e6 [CommRing K] (ξ : K) (x : Cubic K ξ) : F12 K ξ := ⟨x, 0⟩

/-- Embedding of the base `K` (the `Fp2` level) into `Fp12`. -/
def e2 [CommRing K] (ξ : K) (z : K) : F12 K ξ := ⟨⟨z, 0, 0⟩, 0⟩

/-- The generator `w` of `Fp12` over `Fp6` (`w² = v`, `w⁶ = ξ`). -/
def wGen [CommRing K] (ξ : K) : F12 K ξ := ⟨0, 1⟩

/-- Build an `Fp12` element from the six `K`-coefficients in the
`z`-labelling of the source (`z0 = c0.c0`, `z4 = c0.c1`, `z3 = c0.c2`,
`z2 = c1.c0`, `z1 = c1.c1`, `z5 = c1.c2`); in the `w`-power basis the
element is `z0 + z2·w + z4·w² + z1·w³ + z3·w⁴ + z5·w⁵`. -/
def mk6 [CommRing K] (ξ : K) (z0 z1 z2 z3 z4 z5 : K) : F12 K ξ :=
  ⟨⟨z0, z4, z3⟩, ⟨z2, z1, z5⟩⟩

/-- Scale the `i`-th `w`-power coefficient by `s^i` (the coordinate form
of the substitution `w ↦ s·w`); the power maps `x ↦ x^(p^{2k})` act this
way on the tower. -/
def twist [CommRing K] (ξ : K) (s : K) (a : F12 K ξ) : F12 K ξ :=
  mk6 K ξ a.c0.c0 (s ^ 3 * a.c1.c1) (s * a.c1.c0) (s ^ 4 * a.c0.c2)
    (s ^ 2 * a.c0.c1) (s ^ 5 * a.c1.c2)

/-- Conjugation of `Fp12` over `Fp6` (negate the odd `w`-powers). -/
def conj [CommRing K] (ξ : K) (a : F12 K ξ) : F12 K ξ := ⟨a.c0, -a.c1⟩

/-- The adjugate of `a` for the cubic extension `Fp12 / Fp4` written in
the six `K`-coordinates: with `A = z0 + z1·y`, `B = z2 + z3·y`,
`C = z4 + z5·y` (`y = w³`, `y² = ξ`), this is
`(A² − y·B·C) + (y·C² − A·B)·w + (B² − A·C)·w²`; it satisfies
`a * adj a = n(a)` with `n` the `Fp4`-norm form. -/
def adj [CommRing K] (ξ : K) (a : F12 K ξ) : F12 K ξ :=
  mk6 K ξ
    (a.c0.c0 ^ 2 + ξ * a.c1.c1 ^ 2 - ξ * (a.c1.c0 * a.c1.c2 + a.c0.c2 * a.c0.c1))
    (2 * a.c0.c0 * a.c1.c1 - a.c1.c0 * a.c0.c1 - ξ * a.c0.c2 * a.c1.c2)
    (2 * ξ * a.c0.c1 * a.c1.c2 - a.c0.c0 * a.c1.c0 - ξ * a.c1.c1 * a.c0.c2)
    (a.c0.c1 ^ 2 + ξ * a.c1.c2 ^ 2 - a.c0.c0 * a.c0.c2 - a.c1.c1 * a.c1.c0)
    (a.c1.c0 ^ 2 + ξ * a.c0.c2 ^ 2 - a.c0.c0 * a.c0.c1 - ξ * a.c1.c1 * a.c1.c2)
    (2 * a.c1.c0 * a.c0.c2 - a.c0.c0 * a.c1.c2 - a.c1.c1 * a.c0.c1)

/-! ## Concrete parameter sets used as witnesses -/

/-- A one-limb instantiation with the toy modulus 17 of the
specification's concrete scenario; `R = 2⁶⁴ mod 17 = 1`. -/
def P17 : MontParams where
  N := 1
  p := 17
  rInv := 1
  hN := by norm_num
  hp := by norm_num
  hfit := by norm_num
  hrInv := by norm_num

/-- A one-limb instantiation with modulus 19, where the Montgomery
constant `R = 2⁶⁴ mod 19 = 17` is nontrivial (`17 * 9 ≡ 1 (mod 19)`). -/
def P19 : MontParams where
  N := 1
  p := 19
  rInv := 9
  hN := by norm_num
  hp := by norm_num
  hfit := by norm_num
  hrInv := by norm_num

/-- The decimal grammar `"0" | [1-9][0-9]*` of the specification, on
character lists. -/
def decimalGrammar (s : List Char) : Prop :=
  s = [Char.ofNat 48] ∨
    (s ≠ [] ∧ (∀ ch ∈ s, 48 ≤ ch.toNat ∧ ch.toNat ≤ 57) ∧ s.headI.toNat ≠ 48)

/-! ## Arithmetic lemmas for the Montgomery prime-field model -/

namespace MontParams

variable (P : MontParams)

theorem p_pos : 0 < P.p := P.hp.pos

theorem one_lt_p : 1 < P.p := P.hp.one_lt

theorem p_lt_W : P.p < P.W := by
  have h := P.hfit
  have := P.p_pos
  unfold W at *
  omega

theorem R_lt_p : P.R < P.p := Nat.mod_lt _ P.p_pos

theorem R2_lt_p : P.R2 < P.p := Nat.mod_lt _ P.p_pos

theorem R_rInv_modeq : P.R * P.rInv ≡ 1 [MOD P.p] := by
  show P.R * P.rInv % P.p = 1 % P.p
  rw [Nat.mod_eq_of_lt P.one_lt_p]
  exact P.hrInv

theorem p_odd : P.p % 2 = 1 := by
  have hne : P.p ≠ 2 := by
    intro h
    have hdvd : (2 : ℕ) ∣ 2 ^ (64 * P.N) := dvd_pow_self 2 (by have := P.hN; omega)
    have h0 : 2 ^ (64 * P.N) % P.p = 0 := by
      rw [h]
      omega
    have hr := P.hrInv
    rw [h0] at hr
    simp at hr
  exact Nat.odd_iff.mp (P.hp.odd_of_ne_two hne)

theorem two_p_le_W : 2 * P.p ≤ P.W := P.hfit

theorem add_nocarry_eq {x y : ℕ} (h : x + y < P.W) : P.add_nocarry x y = x + y :=
  Nat.mod_eq_of_lt h

theorem sub_noborrow_eq {x y : ℕ} (hyx : y ≤ x) (hx : x < P.W) :
    P.sub_noborrow x y = x - y := by
  unfold sub_noborrow
  have h1 : x + P.W - y = (x - y) + P.W := by omega
  rw [h1, Nat.add_mod_right, Nat.mod_eq_of_lt (by omega)]

theorem reduce_eq {a : ℕ} (h : a < 2 * P.p) : P.reduce a = a % P.p := by
  unfold reduce is_valid
  split
  · rw [Nat.mod_eq_of_lt ‹_›]
  · have hpa : P.p ≤ a := by omega
    have haW : a < P.W := by have := P.two_p_le_W; omega
    rw [P.sub_noborrow_eq hpa haW, Nat.mod_eq_sub_mod hpa,
      Nat.mod_eq_of_lt (show a - P.p < P.p by omega)]

theorem add_assign_eq {a b : ℕ} (ha : a < P.p) (hb : b < P.p) :
    P.add_assign a b = (a + b) % P.p := by
  unfold add_assign
  rw [P.add_nocarry_eq (by have := P.two_p_le_W; omega), P.reduce_eq (by omega)]

theorem add_assign_lt {a b : ℕ} (ha : a < P.p) (hb : b < P.p) :
    P.add_assign a b < P.p := by
  rw [P.add_assign_eq ha hb]; exact Nat.mod_lt _ P.p_pos

theorem sub_assign_eq {a b : ℕ} (ha : a < P.p) (hb : b < P.p) :
    P.sub_assign a b = (a + P.p - b) % P.p := by
  unfold sub_assign
  have hW := P.two_p_le_W
  split
  · rw [P.add_nocarry_eq (by omega), P.sub_noborrow_eq (by omega) (by omega),
      Nat.mod_eq_of_lt (by omega)]
  · rw [P.sub_noborrow_eq (by omega) (by omega)]
    have h1 : a + P.p - b = a - b + P.p := by omega
    rw [h1, Nat.add_mod_right, Nat.mod_eq_of_lt (by omega)]

theorem sub_assign_lt {a b : ℕ} (ha : a < P.p) (hb : b < P.p) :
    P.sub_assign a b < P.p := by
  rw [P.sub_assign_eq ha hb]; exact Nat.mod_lt _ P.p_pos

theorem sub_assign_add_modeq {b c : ℕ} (hb : b < P.p) (hc : c < P.p) :
    P.sub_assign b c + c ≡ b [MOD P.p] := by
  rw [P.sub_assign_eq hb hc]
  calc (b + P.p - c) % P.p + c
      ≡ b + P.p - c + c [MOD P.p] := Nat.ModEq.add_right c (Nat.mod_modEq _ _)
    _ = b + P.p := by omega
    _ ≡ b [MOD P.p] := Nat.add_mod_right b P.p

theorem double_in_place_eq {a : ℕ} (ha : a < P.p) :
    P.double_in_place a = 2 * a % P.p := by
  unfold double_in_place
  rw [Nat.mod_eq_of_lt (by have := P.two_p_le_W; omega), P.reduce_eq (by omega)]

theorem double_in_place_lt {a : ℕ} (ha : a < P.p) : P.double_in_place a < P.p := by
  rw [P.double_in_place_eq ha]; exact Nat.mod_lt _ P.p_pos

theorem neg_lt {a : ℕ} (ha : a < P.p) : P.neg a < P.p := by
  unfold neg
  split
  · omega
  · rw [P.sub_noborrow_eq (by omega) P.p_lt_W]
    omega

theorem mul_assign_lt (a b : ℕ) : P.mul_assign a b < P.p := Nat.mod_lt _ P.p_pos

theorem square_in_place_lt (a : ℕ) : P.square_in_place a < P.p := P.mul_assign_lt a a

theorem from_repr_lt (r : ℕ) : P.from_repr r < P.p := by
  unfold from_repr
  split
  · exact P.mul_assign_lt _ _
  · exact P.p_pos

theorem into_repr_lt (a : ℕ) : P.into_repr a < P.p := Nat.mod_lt _ P.p_pos

theorem halve_lt {b : ℕ} (hb : b < P.p) : P.halve b < P.p := by
  unfold halve
  have hW := P.two_p_le_W
  split
  · omega
  · rw [P.add_nocarry_eq (by omega)]
    omega

theorem halve_modeq {b : ℕ} (hb : b < P.p) : 2 * P.halve b ≡ b [MOD P.p] := by
  unfold halve
  have hW := P.two_p_le_W
  have hp2 := P.p_odd
  split
  · have h2 : 2 * (b / 2) = b := by omega
    rw [h2]
  · rw [P.add_nocarry_eq (by omega)]
    have hbodd : b % 2 = 1 := by omega
    have h2 : 2 * ((b + P.p) / 2) = b + P.p := by omega
    rw [h2]
    exact Nat.add_mod_right b P.p

theorem p_coprime_two : Nat.gcd P.p 2 = 1 := by
  have h := P.p_odd
  have hdvd : Nat.gcd P.p 2 ∣ 2 := Nat.gcd_dvd_right _ _
  have hdvdp : Nat.gcd P.p 2 ∣ P.p := Nat.gcd_dvd_left _ _
  rcases (Nat.dvd_prime Nat.prime_two).mp hdvd with h1 | h2
  · exact h1
  · exfalso
    rw [h2] at hdvdp
    omega

/-- The invariant of the binary-extended-Euclidean loop: as long as
`u, v` are positive and coprime, the co-factors stay valid and satisfy
`a·b ≡ u·R²`, `a·c ≡ v·R²  (mod p)`; with fuel at least `u + v` the loop
terminates and returns a value `r < p` with `a·r ≡ R²  (mod p)`. -/
theorem invLoop_spec (a : ℕ) :
    ∀ fuel u v b c, 0 < u → 0 < v → Nat.gcd u v = 1 → b < P.p → c < P.p →
      u + v ≤ fuel →
      a * b ≡ u * P.R2 [MOD P.p] → a * c ≡ v * P.R2 [MOD P.p] →
      ∃ r, P.invLoop fuel u v b c = some r ∧ r < P.p ∧ a * r ≡ P.R2 [MOD P.p] := by
  intro fuel
  induction fuel with
  | zero =>
    intro u v b c hu hv _ _ _ hfuel _ _
    omega
  | succ fuel ih =>
    intro u v b c hu hv hgcd hb hc hfuel hinvb hinvc
    by_cases hu1 : u = 1
    · refine ⟨b, by simp [invLoop, hu1], hb, ?_⟩
      simpa [hu1] using hinvb
    by_cases hv1 : v = 1
    · refine ⟨c, by simp [invLoop, hu1, hv1], hc, ?_⟩
      simpa [hv1] using hinvc
    by_cases hue : u % 2 = 0
    · -- halve `u`, adjust `b`
      have hstep : P.invLoop (fuel + 1) u v b c = P.invLoop fuel (u / 2) v (P.halve b) c := by
        simp [invLoop, hu1, hv1, hue]
      have hu2 : 2 ≤ u := by omega
      have huhalf : u / 2 < u := Nat.div_lt_self (by omega) (by omega)
      have hupos : 0 < u / 2 := by omega
      have hdvd : u / 2 ∣ u := ⟨2, by omega⟩
      have hgcd' : Nat.gcd (u / 2) v = 1 :=
        Nat.dvd_one.mp (hgcd ▸ Nat.dvd_gcd
          (dvd_trans (Nat.gcd_dvd_left _ _) hdvd) (Nat.gcd_dvd_right _ _))
      have hcong : a * P.halve b ≡ u / 2 * P.R2 [MOD P.p] := by
        have h2 : 2 * (a * P.halve b) ≡ 2 * (u / 2 * P.R2) [MOD P.p] := by
          calc 2 * (a * P.halve b) = a * (2 * P.halve b) := by ring
            _ ≡ a * b [MOD P.p] := Nat.ModEq.mul_left a (P.halve_modeq hb)
            _ ≡ u * P.R2 [MOD P.p] := hinvb
            _ = 2 * (u / 2 * P.R2) := by
                obtain ⟨k, hk⟩ : ∃ k, u = 2 * k := ⟨u / 2, by omega⟩
                subst hk
                rw [Nat.mul_div_cancel_left k (by norm_num : (0:ℕ) < 2)]
                ring
        exact Nat.ModEq.cancel_left_of_coprime P.p_coprime_two h2
      rw [hstep]
      exact ih (u / 2) v (P.halve b) c hupos hv hgcd' (P.halve_lt hb) hc
        (by omega) hcong hinvc
    by_cases hve : v % 2 = 0
    · -- halve `v`, adjust `c`
      have hstep : P.invLoop (fuel + 1) u v b c = P.invLoop fuel u (v / 2) b (P.halve c) := by
        simp [invLoop, hu1, hv1, hue, hve]
      have hv2 : 2 ≤ v := by omega
      have hvhalf : v / 2 < v := Nat.div_lt_self (by omega) (by omega)
      have hvpos : 0 < v / 2 := by omega
      have hdvd : v / 2 ∣ v := ⟨2, by omega⟩
      have hgcd' : Nat.gcd u (v / 2) = 1 :=
        Nat.dvd_one.mp (hgcd ▸ Nat.dvd_gcd (Nat.gcd_dvd_left _ _)
          (dvd_trans (Nat.gcd_dvd_right _ _) hdvd))
      have hcong : a * P.halve c ≡ v / 2 * P.R2 [MOD P.p] := by
        have h2 : 2 * (a * P.halve c) ≡ 2 * (v / 2 * P.R2) [MOD P.p] := by
          calc 2 * (a * P.halve c) = a * (2 * P.halve c) := by ring
            _ ≡ a * c [MOD P.p] := Nat.ModEq.mul_left a (P.halve_modeq hc)
            _ ≡ v * P.R2 [MOD P.p] := hinvc
            _ = 2 * (v / 2 * P.R2) := by
                obtain ⟨k, hk⟩ : ∃ k, v = 2 * k := ⟨v / 2, by omega⟩
                subst hk
                rw [Nat.mul_div_cancel_left k (by norm_num : (0:ℕ) < 2)]
                ring
        exact Nat.ModEq.cancel_left_of_coprime P.p_coprime_two h2
      rw [hstep]
      exact ih u (v / 2) b (P.halve c) hu hvpos hgcd' hb (P.halve_lt hc)
        (by omega) hinvb hcong
    by_cases hvu : v < u
    · -- subtract `v` from `u`, `c` from `b`
      have hstep : P.invLoop (fuel + 1) u v b c =
          P.invLoop fuel (u - v) v (P.sub_assign b c) c := by
        simp [invLoop, hu1, hv1, hue, hve, hvu]
      have hgcd' : Nat.gcd (u - v) v = 1 := by
        rw [Nat.gcd_sub_self_left (le_of_lt hvu)]
        exact hgcd
      have hcong : a * P.sub_assign b c ≡ (u - v) * P.R2 [MOD P.p] := by
        have h3 : a * P.sub_assign b c + a * c ≡ (u - v) * P.R2 + v * P.R2 [MOD P.p] := by
          calc a * P.sub_assign b c + a * c = a * (P.sub_assign b c + c) := by ring
            _ ≡ a * b [MOD P.p] := Nat.ModEq.mul_left a (P.sub_assign_add_modeq hb hc)
            _ ≡ u * P.R2 [MOD P.p] := hinvb
            _ = (u - v) * P.R2 + v * P.R2 := by
                rw [← Nat.add_mul]
                congr 1
                omega
        exact (Nat.ModEq.add_right_cancel hinvc h3)
      rw [hstep]
      exact ih (u - v) v (P.sub_assign b c) c (by omega) hv hgcd'
        (P.sub_assign_lt hb hc) hc (by omega) hcong hinvc
    · -- subtract `u` from `v`, `b` from `c`
      have huv : u < v := by
        rcases Nat.lt_or_ge u v with h | h
        · exact h
        · exfalso
          have huv' : u = v := by omega
          rw [huv', Nat.gcd_self] at hgcd
          omega
      have hstep : P.invLoop (fuel + 1) u v b c =
          P.invLoop fuel u (v - u) b (P.sub_assign c b) := by
        simp [invLoop, hu1, hv1, hue, hve, hvu]
      have hgcd' : Nat.gcd u (v - u) = 1 := by
        rw [Nat.gcd_sub_self_right (le_of_lt huv)]
        exact hgcd
      have hcong : a * P.sub_assign c b ≡ (v - u) * P.R2 [MOD P.p] := by
        have h3 : a * P.sub_assign c b + a * b ≡ (v - u) * P.R2 + u * P.R2 [MOD P.p] := by
          calc a * P.sub_assign c b + a * b = a * (P.sub_assign c b + b) := by ring
            _ ≡ a * c [MOD P.p] := Nat.ModEq.mul_left a (P.sub_assign_add_modeq hc hb)
            _ ≡ v * P.R2 [MOD P.p] := hinvc
            _ = (v - u) * P.R2 + u * P.R2 := by
                rw [← Nat.add_mul]
                congr 1
                omega
        exact (Nat.ModEq.add_right_cancel hinvb h3)
      rw [hstep]
      exact ih u (v - u) b (P.sub_assign c b) hu (by omega) hgcd'
        hb (P.sub_assign_lt hc hb) (by omega) hinvb hcong

/-- Consequence for `inverse` on a nonzero valid element: the loop
succeeds and the result is the valid element `r` with `a·r ≡ R² (mod p)`. -/
theorem inverse_spec {a : ℕ} (ha : a < P.p) (ha0 : a ≠ 0) :
    ∃ r, P.inverse a = some r ∧ r < P.p ∧ a * r ≡ P.R2 [MOD P.p] := by
  have hgcd : Nat.gcd a P.p = 1 := by
    have hnd : ¬P.p ∣ a := by
      intro hdvd
      have := Nat.le_of_dvd (Nat.pos_of_ne_zero ha0) hdvd
      omega
    have h := (P.hp.coprime_iff_not_dvd.mpr hnd).symm
    exact h
  have hb0 : a * P.R2 ≡ a * P.R2 [MOD P.p] := Nat.ModEq.refl _
  have hc0 : a * 0 ≡ P.p * P.R2 [MOD P.p] := by
    have h1 : a * 0 = 0 := by ring
    have h2 : P.p * P.R2 ≡ 0 * P.R2 [MOD P.p] :=
      Nat.ModEq.mul_right _ (Nat.modEq_zero_iff_dvd.mpr dvd_rfl)
    rw [h1]
    simpa using h2.symm
  obtain ⟨r, hr, hrlt, hrc⟩ := P.invLoop_spec a (a + P.p) a P.p P.R2 0
    (by omega) P.p_pos hgcd P.R2_lt_p P.p_pos (by omega) hb0 hc0
  refine ⟨r, ?_, hrlt, hrc⟩
  unfold inverse
  rw [if_neg ha0]
  exact hr

/-- The Montgomery product of a nonzero valid `a` with the loop result is
the stored value of `one()`. -/
theorem inverse_mul_one {a r : ℕ} (hrc : a * r ≡ P.R2 [MOD P.p]) :
    P.mul_assign a r = P.one := by
  unfold mul_assign one
  have h1 : a * r * P.rInv ≡ P.R2 * P.rInv [MOD P.p] := Nat.ModEq.mul_right _ hrc
  have h2 : P.R2 * P.rInv ≡ P.R * 1 [MOD P.p] := by
    calc P.R2 * P.rInv ≡ P.R * P.R * P.rInv [MOD P.p] :=
          Nat.ModEq.mul_right _ (Nat.mod_modEq _ _)
      _ = P.R * (P.R * P.rInv) := by ring
      _ ≡ P.R * 1 [MOD P.p] := Nat.ModEq.mul_left _ P.R_rInv_modeq
  have h3 : a * r * P.rInv ≡ P.R [MOD P.p] := by
    simpa using h1.trans h2
  calc a * r * P.rInv % P.p = P.R % P.p := h3
    _ = P.R := Nat.mod_eq_of_lt P.R_lt_p

theorem mul_R2_rInv_modeq (x : ℕ) : x * P.R2 * P.rInv ≡ x * P.R [MOD P.p] := by
  calc x * P.R2 * P.rInv ≡ x * (P.R * P.R) * P.rInv [MOD P.p] :=
        Nat.ModEq.mul_right _ (Nat.ModEq.mul_left _ (Nat.mod_modEq _ _))
    _ = x * P.R * (P.R * P.rInv) := by ring
    _ ≡ x * P.R * 1 [MOD P.p] := Nat.ModEq.mul_left _ P.R_rInv_modeq
    _ = x * P.R := by ring

theorem mul_R_rInv_modeq (x : ℕ) : x * P.R * P.rInv ≡ x [MOD P.p] := by
  calc x * P.R * P.rInv = x * (P.R * P.rInv) := by ring
    _ ≡ x * 1 [MOD P.p] := Nat.ModEq.mul_left _ P.R_rInv_modeq
    _ = x := by ring

theorem into_repr_from_repr {r : ℕ} (hr : r < P.p) :
    P.into_repr (P.from_repr r) = r := by
  unfold from_repr
  rw [if_pos (show P.is_valid r from hr)]
  unfold into_repr mul_assign
  have h : r * P.R2 * P.rInv % P.p * P.rInv ≡ r [MOD P.p] := by
    calc r * P.R2 * P.rInv % P.p * P.rInv
        ≡ r * P.R2 * P.rInv * P.rInv [MOD P.p] :=
          Nat.ModEq.mul_right _ (Nat.mod_modEq _ _)
      _ ≡ r * P.R * P.rInv [MOD P.p] := Nat.ModEq.mul_right _ (P.mul_R2_rInv_modeq r)
      _ ≡ r [MOD P.p] := P.mul_R_rInv_modeq r
  calc r * P.R2 * P.rInv % P.p * P.rInv % P.p = r % P.p := h
    _ = r := Nat.mod_eq_of_lt hr

theorem from_repr_into_repr {a : ℕ} (ha : a < P.p) :
    P.from_repr (P.into_repr a) = a := by
  unfold from_repr
  rw [if_pos (show P.is_valid (P.into_repr a) from P.into_repr_lt a)]
  unfold into_repr mul_assign
  have h : a * P.rInv % P.p * P.R2 * P.rInv ≡ a [MOD P.p] := by
    calc a * P.rInv % P.p * P.R2 * P.rInv
        ≡ a * P.rInv * P.R2 * P.rInv [MOD P.p] :=
          Nat.ModEq.mul_right _ (Nat.ModEq.mul_right _ (Nat.mod_modEq _ _))
      _ ≡ a * P.rInv * P.R [MOD P.p] := P.mul_R2_rInv_modeq (a * P.rInv)
      _ = a * P.R * P.rInv := by ring
      _ ≡ a [MOD P.p] := P.mul_R_rInv_modeq a
  calc a * P.rInv % P.p * P.R2 * P.rInv % P.p = a % P.p := h
    _ = a := Nat.mod_eq_of_lt ha

theorem p_not_dvd_rInv : ¬P.p ∣ P.rInv := by
  intro h
  have h1 : P.p ∣ P.R * P.rInv := Dvd.dvd.mul_left h P.R
  have h2 := P.R_rInv_modeq
  obtain ⟨k, hk⟩ := h1
  have h4 : P.R * P.rInv % P.p = 0 := by
    rw [hk]
    exact Nat.mul_mod_right _ _
  have h5 : (1 : ℕ) % P.p = 1 := Nat.mod_eq_of_lt P.one_lt_p
  unfold Nat.ModEq at h2
  omega

theorem into_repr_eq_zero {a : ℕ} (ha : a < P.p) (h : P.into_repr a = 0) : a = 0 := by
  unfold into_repr at h
  have hdvd : P.p ∣ a * P.rInv := Nat.dvd_of_mod_eq_zero h
  rcases (Nat.Prime.dvd_mul P.hp).mp hdvd with h1 | h2
  · exact Nat.eq_zero_of_dvd_of_lt h1 ha
  · exact absurd h2 P.p_not_dvd_rInv

theorem leBytes_leVal : ∀ (k x : ℕ), x < 256 ^ k → leVal (leBytes k x) = x := by
  intro k
  induction k with
  | zero =>
    intro x h
    simp at h
    simp [h, leBytes, leVal]
  | succ k ih =>
    intro x h
    have hdiv : x / 256 < 256 ^ k := by
      rw [Nat.div_lt_iff_lt_mul (by norm_num)]
      calc x < 256 ^ (k + 1) := h
        _ = 256 ^ k * 256 := by ring
    simp only [leBytes, leVal]
    rw [ih _ hdiv]
    omega

theorem leBytes_length (k x : ℕ) : (leBytes k x).length = k := by
  induction k generalizing x with
  | zero => simp [leBytes]
  | succ k ih => simp [leBytes, ih]

theorem leBytes_bound (k x : ℕ) : ∀ b ∈ leBytes k x, b < 256 := by
  induction k generalizing x with
  | zero => simp [leBytes]
  | succ k ih =>
    intro b hb
    simp only [leBytes, List.mem_cons] at hb
    rcases hb with h | h
    · omega
    · exact ih _ b h

theorem leVal_lt (bytes : List ℕ) (h : ∀ b ∈ bytes, b < 256) :
    leVal bytes < 256 ^ bytes.length := by
  induction bytes with
  | nil => simp [leVal]
  | cons b bs ih =>
    have hb : b < 256 := h b (List.mem_cons_self _ _)
    have hbs := ih (fun x hx => h x (List.mem_cons_of_mem _ hx))
    simp only [leVal, List.length_cons]
    calc b + 256 * leVal bs < 256 + 256 * leVal bs := by omega
      _ = 256 * (leVal bs + 1) := by ring
      _ ≤ 256 * 256 ^ bs.length := by
          have : leVal bs + 1 ≤ 256 ^ bs.length := hbs
          exact Nat.mul_le_mul_left _ this
      _ = 256 ^ (bs.length + 1) := by ring

theorem W_eq_256_pow : P.W = 256 ^ (8 * P.N) := by
  unfold W
  rw [show (256 : ℕ) = 2 ^ 8 by norm_num, ← pow_mul]
  congr 1
  ring

theorem read_write {a : ℕ} (ha : a < P.p) : P.read (P.write a) = some a := by
  unfold write read
  have hv : leVal (leBytes (8 * P.N) (P.into_repr a)) = P.into_repr a := by
    apply leBytes_leVal
    rw [← P.W_eq_256_pow]
    have h1 := P.into_repr_lt a
    have h2 := P.p_lt_W
    omega
  simp only [hv]
  by_cases h0 : P.into_repr a = 0
  · have ha0 : a = 0 := P.into_repr_eq_zero ha h0
    rw [if_pos h0, ha0]
  · rw [if_neg h0]
    have hf : P.from_repr (P.into_repr a) = a := P.from_repr_into_repr ha
    rw [hf]
    have ha0 : a ≠ 0 := by
      intro h
      subst h
      exact h0 (by unfold into_repr; simp)
    simp [ha0]

theorem read_oversized {bytes : List ℕ} (hlen : bytes.length = 8 * P.N)
    (hb : ∀ x ∈ bytes, x < 256) (hge : P.p ≤ leVal bytes) : P.read bytes = none := by
  unfold read
  have hpos := P.p_pos
  rw [if_neg (by omega)]
  have hf : P.from_repr (leVal bytes) = 0 := by
    unfold from_repr
    rw [if_neg (by unfold is_valid; omega)]
  simp [hf]

end MontParams

/-! ## Claim theorems for the prime-field engine -/

/-- C1: for a valid nonzero `a`, `inverse` returns `some b` with `b` a
valid element whose Montgomery product with `a` is `one()` (the binary-GCD
loop started at `b = R²`, `c = 0` produces the Montgomery-form inverse),
and `inverse 0 = none`. -/
theorem c1_inverse_correct (P : MontParams) {a : ℕ} (ha : a < P.p) :
    (a = 0 → P.inverse a = none) ∧
    (a ≠ 0 → ∃ b, P.inverse a = some b ∧ b < P.p ∧ P.mul_assign a b = P.one) := by
  constructor
  · intro h
    simp [MontParams.inverse, h]
  · intro h
    obtain ⟨r, hr, hlt, hc⟩ := P.inverse_spec ha h
    exact ⟨r, hr, hlt, P.inverse_mul_one hc⟩

/-- Witness for C1 at the toy modulus 17 of the specification:
`Fp(5).inverse() = Some(Fp(7))` and `5 * 7 = 35 ≡ 1 (mod 17)`. -/
theorem c1_inverse_correct_witness :
    (5 : ℕ) < P17.p ∧ (5 ≠ 0 →
      ∃ b, P17.inverse 5 = some b ∧ b < P17.p ∧ P17.mul_assign 5 b = P17.one) :=
  ⟨by decide, (c1_inverse_correct P17 (by decide)).2⟩

/-- C3: every arithmetic operation on valid operands produces a valid
result (`is_valid`, i.e. stored limb value `< MODULUS`): add, sub, double,
negate, multiply, square, and any value returned by inverse. -/
theorem c3_validity (P : MontParams) {a b : ℕ}
    (ha : P.is_valid a) (hb : P.is_valid b) :
    P.is_valid (P.add_assign a b) ∧ P.is_valid (P.sub_assign a b) ∧
    P.is_valid (P.double_in_place a) ∧ P.is_valid (P.neg a) ∧
    P.is_valid (P.mul_assign a b) ∧ P.is_valid (P.square_in_place a) ∧
    (∀ r, P.inverse a = some r → P.is_valid r) := by
  refine ⟨P.add_assign_lt ha hb, P.sub_assign_lt ha hb, P.double_in_place_lt ha,
    P.neg_lt ha, P.mul_assign_lt a b, P.square_in_place_lt a, ?_⟩
  intro r hr
  by_cases h0 : a = 0
  · simp [MontParams.inverse, h0] at hr
  · obtain ⟨r', hr', hlt, _⟩ := P.inverse_spec ha h0
    have heq : r = r' := by
      rw [hr] at hr'
      exact Option.some.inj hr'
    rw [heq]
    exact hlt

/-- Witness for C3 at the toy modulus 17 with `a = 5`, `b = 14`. -/
theorem c3_validity_witness :
    P17.is_valid 5 ∧ P17.is_valid 14 ∧
      (P17.is_valid (P17.add_assign 5 14) ∧ P17.is_valid (P17.sub_assign 5 14) ∧
       P17.is_valid (P17.double_in_place 5) ∧ P17.is_valid (P17.neg 5) ∧
       P17.is_valid (P17.mul_assign 5 14) ∧ P17.is_valid (P17.square_in_place 5) ∧
       (∀ r, P17.inverse 5 = some r → P17.is_valid r)) :=
  ⟨by decide, by decide, c3_validity P17 (by decide) (by decide)⟩

/-- Digit strings keep the accumulator valid: if `fromStrLoop` returns a
value from a valid accumulator, the value is valid (this is why the final
`!res.is_valid()` rejection in `from_str` can never fire). -/
theorem fromStrLoop_valid (P : MontParams) :
    ∀ (s : List Char) (first : Bool) (res : ℕ), res < P.p →
      ∀ r, P.fromStrLoop s first res = some r → r < P.p := by
  intro s
  induction s with
  | nil =>
    intro first res hres r hr
    simp [MontParams.fromStrLoop] at hr
    omega
  | cons ch rest ih =>
    intro first res hres r hr
    simp only [MontParams.fromStrLoop] at hr
    split at hr
    · split at hr
      · exact absurd hr (by simp)
      · exact ih false _ (P.add_assign_lt (P.mul_assign_lt _ _) (P.from_repr_lt _)) r hr
    · exact absurd hr (by simp)

/-- Digit strings always drive the loop to completion: if every character
is a decimal digit and, when the `first` flag is set, the first digit is
not `0`, the loop returns a value. -/
theorem fromStrLoop_some (P : MontParams) :
    ∀ (s : List Char) (first : Bool) (res : ℕ),
      (∀ ch ∈ s, 48 ≤ ch.toNat ∧ ch.toNat ≤ 57) →
      (first = true → s ≠ [] → s.headI.toNat ≠ 48) →
      ∃ r, P.fromStrLoop s first res = some r := by
  intro s
  induction s with
  | nil =>
    intro first res _ _
    exact ⟨res, rfl⟩
  | cons ch rest ih =>
    intro first res hdig hfirst
    have hch := hdig ch (List.mem_cons_self _ _)
    have hd : MontParams.toDigit10 ch = some (ch.toNat - 48) := by
      unfold MontParams.toDigit10
      rw [if_pos hch]
    simp only [MontParams.fromStrLoop, hd]
    have hnz : ¬(first = true ∧ ch.toNat - 48 = 0) := by
      rintro ⟨hf, hz⟩
      have := hfirst hf (by simp)
      simp only [List.headI] at this
      omega
    rw [if_neg hnz]
    exact ih false _ (fun c hc => hdig c (List.mem_cons_of_mem _ hc)) (by simp)

/-- A non-digit character anywhere makes the loop abort with an error. -/
theorem fromStrLoop_none_of_nondigit (P : MontParams) :
    ∀ (s : List Char) (first : Bool) (res : ℕ),
      (∃ ch ∈ s, ¬(48 ≤ ch.toNat ∧ ch.toNat ≤ 57)) →
      P.fromStrLoop s first res = none := by
  intro s
  induction s with
  | nil =>
    intro first res h
    simp at h
  | cons ch rest ih =>
    intro first res h
    by_cases hch : 48 ≤ ch.toNat ∧ ch.toNat ≤ 57
    · have hd : MontParams.toDigit10 ch = some (ch.toNat - 48) := by
        unfold MontParams.toDigit10
        rw [if_pos hch]
      simp only [MontParams.fromStrLoop, hd]
      have hrest : ∃ c ∈ rest, ¬(48 ≤ c.toNat ∧ c.toNat ≤ 57) := by
        obtain ⟨c, hc, hcd⟩ := h
        rcases List.mem_cons.mp hc with rfl | hmem
        · exact absurd hch hcd
        · exact ⟨c, hmem, hcd⟩
      by_cases hfz : first = true ∧ ch.toNat - 48 = 0
      · rw [if_pos hfz]
      · rw [if_neg hfz]
        exact ih false _ hrest
    · have hd : MontParams.toDigit10 ch = none := by
        unfold MontParams.toDigit10
        rw [if_neg hch]
      simp only [MontParams.fromStrLoop, hd]

/-- A leading zero digit makes the loop abort immediately. -/
theorem fromStrLoop_none_of_leading_zero (P : MontParams) (ch : Char)
    (rest : List Char) (res : ℕ) (h : ch.toNat = 48) :
    P.fromStrLoop (ch :: rest) true res = none := by
  have hd : MontParams.toDigit10 ch = some (ch.toNat - 48) := by
    unfold MontParams.toDigit10
    rw [if_pos (by omega)]
  simp [MontParams.fromStrLoop, hd, h]

/-- C4 (amended): `from_str(s)` succeeds exactly when `s` matches the
grammar `"0" | [1-9][0-9]*` — the empty string, redundant leading zeros
and non-digit characters are rejected, but a digit string whose decimal
value is `≥ MODULUS` is accepted and reduced modulo the modulus: the final
`!res.is_valid()` rejection can never fire because the accumulator is kept
reduced by the field arithmetic. -/
theorem c4_from_str_grammar (P : MontParams) (s : List Char) :
    (∃ v, P.from_str s = some v) ↔ decimalGrammar s := by
  constructor
  · rintro ⟨v, hv⟩
    unfold MontParams.from_str at hv
    by_cases hnil : s = []
    · rw [if_pos hnil] at hv
      exact absurd hv (by simp)
    rw [if_neg hnil] at hv
    by_cases hzero : s = [Char.ofNat 48]
    · exact Or.inl hzero
    rw [if_neg hzero] at hv
    refine Or.inr ⟨hnil, ?_, ?_⟩
    · by_contra hnd
      push_neg at hnd
      obtain ⟨c, hc, hcd⟩ := hnd
      rw [fromStrLoop_none_of_nondigit P s true 0 ⟨c, hc, fun h => by have := hcd h.1; omega⟩] at hv
      simp at hv
    · intro h48
      obtain ⟨ch, rest, rfl⟩ : ∃ ch rest, s = ch :: rest := by
        cases s with
        | nil => exact absurd rfl hnil
        | cons a l => exact ⟨a, l, rfl⟩
      simp only [List.headI] at h48
      rw [fromStrLoop_none_of_leading_zero P ch rest 0 h48] at hv
      simp at hv
  · intro hg
    rcases hg with h0 | ⟨hnil, hdig, h48⟩
    · refine ⟨0, ?_⟩
      unfold MontParams.from_str
      rw [if_neg (by rw [h0]; simp), if_pos h0]
    · have hne0 : s ≠ [Char.ofNat 48] := by
        intro h
        rw [h] at h48
        simp [List.headI] at h48
      obtain ⟨r, hr⟩ := fromStrLoop_some P s true 0 hdig (fun _ _ => h48)
      have hrv : r < P.p := fromStrLoop_valid P s true 0 P.p_pos r hr
      refine ⟨r, ?_⟩
      unfold MontParams.from_str
      rw [if_neg hnil, if_neg hne0, hr]
      simp [MontParams.is_valid, hrv]

/-- C4 counterexample: at the toy modulus 17, the decimal string `"17"`
(characters `'1'`, `'7'`) has value `17 ≥ MODULUS`, yet `from_str` returns
`Ok(0)` (the value reduced modulo 17) instead of the error the claim
requires. -/
theorem c4_from_str_counterexample :
    P17.from_str [Char.ofNat 49, Char.ofNat 55] = some 0 ∧ ¬(17 < P17.p) := by
  constructor
  · decide
  · decide

/-- C5: byte serialization round-trips on every valid element, and `read`
rejects (with the invalid-data error, modelled as `none`) every fixed-width
byte blob whose integer value is at least the modulus, instead of silently
reducing it. -/
theorem c5_serialization (P : MontParams) :
    (∀ a, a < P.p → P.read (P.write a) = some a) ∧
    (∀ bytes, bytes.length = 8 * P.N → (∀ x ∈ bytes, x < 256) →
      P.p ≤ MontParams.leVal bytes → P.read bytes = none) := by
  constructor
  · intro a ha
    exact P.read_write ha
  · intro bytes hlen hb hge
    exact P.read_oversized hlen hb hge

/-- Witness for C5 at the toy modulus 17: `read (write 5) = some 5`, and
the 8-byte blob encoding 20 ≥ 17 is rejected. -/
theorem c5_serialization_witness :
    P17.read (P17.write 5) = some 5 ∧
      P17.read (MontParams.leBytes 8 20) = none :=
  ⟨(c5_serialization P17).1 5 (by decide),
   (c5_serialization P17).2 (MontParams.leBytes 8 20) (by decide) (by decide) (by decide)⟩

/-- C6: `from_repr r` enters Montgomery form (multiplies by `R²`) and
represents exactly `r` when `r < MODULUS` (its canonical representative is
`r`), and silently returns the additive identity zero when `r ≥ MODULUS`;
no error is signalled in either case (the function is total). -/
theorem c6_from_repr (P : MontParams) (r : ℕ) :
    (r < P.p → P.from_repr r = P.mul_assign r P.R2 ∧ P.into_repr (P.from_repr r) = r) ∧
    (P.p ≤ r → P.from_repr r = 0) := by
  constructor
  · intro h
    constructor
    · unfold MontParams.from_repr
      rw [if_pos (show P.is_valid r from h)]
    · exact P.into_repr_from_repr h
  · intro h
    unfold MontParams.from_repr
    rw [if_neg (show ¬P.is_valid r by unfold MontParams.is_valid; omega)]

/-- Witness for C6 at the toy modulus 17 with `r = 5` (in range) and
`r = 20` (out of range, silently zero). -/
theorem c6_from_repr_witness :
    (P17.from_repr 5 = P17.mul_assign 5 P17.R2 ∧ P17.into_repr (P17.from_repr 5) = 5) ∧
      P17.from_repr 20 = 0 :=
  ⟨(c6_from_repr P17 5).1 (by decide), (c6_from_repr P17 20).2 (by decide)⟩

/-- C8: on valid operands the `sub_assign` path never wraps: the
conditional `add_nocarry` of the modulus stays below the backing width,
the minuend is at least the subtrahend (so `sub_noborrow` never borrows),
and the result is the valid representative of `a - b (mod p)`. -/
theorem c8_sub_assign (P : MontParams) {a b : ℕ}
    (ha : P.is_valid a) (hb : P.is_valid b) :
    a + P.p < P.W ∧
    b ≤ (if b > a then P.add_nocarry a P.p else a) ∧
    P.sub_assign a b = (a + P.p - b) % P.p ∧
    P.is_valid (P.sub_assign a b) := by
  have hW := P.two_p_le_W
  have ha' : a < P.p := ha
  have hb' : b < P.p := hb
  refine ⟨by omega, ?_, P.sub_assign_eq ha' hb', P.sub_assign_lt ha' hb'⟩
  split
  · rw [P.add_nocarry_eq (by omega)]
    omega
  · omega

/-- Witness for C8 at the toy modulus 17 with `a = 5`, `b = 14`
(the branch that pre-adds the modulus). -/
theorem c8_sub_assign_witness :
    P17.is_valid 5 ∧ P17.is_valid 14 ∧
      (5 + P17.p < P17.W ∧
       14 ≤ (if 14 > 5 then P17.add_nocarry 5 P17.p else 5) ∧
       P17.sub_assign 5 14 = (5 + P17.p - 14) % P17.p ∧
       P17.is_valid (P17.sub_assign 5 14)) :=
  ⟨by decide, by decide, c8_sub_assign P17 (by decide) (by decide)⟩

/-- C9: division by a valid nonzero `b` succeeds — the unwrapped inverse
exists (the missing-inverse branch is unreachable), the quotient is `a`
times the inverse of `b`, and multiplying the quotient back by `b`
recovers `a`; division by zero is `none` (a propagated failure, never a
silently returned sentinel element). -/
theorem c9_div (P : MontParams) {a b : ℕ} (ha : a < P.p) (hb : b < P.p) :
    (b = 0 → P.div a b = none) ∧
    (b ≠ 0 → ∃ i q, P.inverse b = some i ∧ P.div a b = some q ∧
      q = P.mul_assign a i ∧ P.mul_assign q b = a) := by
  constructor
  · intro h
    simp [MontParams.div, MontParams.inverse, h]
  · intro h
    obtain ⟨i, hi, hilt, hic⟩ := P.inverse_spec hb h
    refine ⟨i, P.mul_assign a i, hi, by simp [MontParams.div, hi], rfl, ?_⟩
    unfold MontParams.mul_assign
    have hchain : a * i * P.rInv % P.p * b * P.rInv ≡ a [MOD P.p] := by
      calc a * i * P.rInv % P.p * b * P.rInv
          ≡ a * i * P.rInv * b * P.rInv [MOD P.p] :=
            Nat.ModEq.mul_right _ (Nat.ModEq.mul_right _ (Nat.mod_modEq _ _))
        _ = b * i * (a * P.rInv * P.rInv) := by ring
        _ ≡ P.R2 * (a * P.rInv * P.rInv) [MOD P.p] := Nat.ModEq.mul_right _ hic
        _ = a * P.rInv * P.R2 * P.rInv := by ring
        _ ≡ a * P.rInv * P.R [MOD P.p] := P.mul_R2_rInv_modeq (a * P.rInv)
        _ = a * P.R * P.rInv := by ring
        _ ≡ a [MOD P.p] := P.mul_R_rInv_modeq a
    calc a * i * P.rInv % P.p * b * P.rInv % P.p = a % P.p := hchain
      _ = a := Nat.mod_eq_of_lt ha

/-- Witness for C9 at the toy modulus 17 with `a = 3`, `b = 5`. -/
theorem c9_div_witness :
    ((5 : ℕ) = 0 → P17.div 3 5 = none) ∧
      ((5 : ℕ) ≠ 0 → ∃ i q, P17.inverse 5 = some i ∧ P17.div 3 5 = some q ∧
        q = P17.mul_assign 3 i ∧ P17.mul_assign q 5 = 3) :=
  c9_div P17 (by decide) (by decide)

/-- C10: the `Ord` instance orders valid elements by the integers they
represent (`x` with `x·R ≡ a (mod p)`), i.e. by their canonical
non-Montgomery representatives — and not by the raw Montgomery limb
values, as the concrete 19-element field shows. -/
theorem c10_cmp :
    (∀ (P : MontParams) (a b x y : ℕ), P.is_valid a → P.is_valid b →
      x < P.p → x * P.R % P.p = a → y < P.p → y * P.R % P.p = b →
      P.cmp a b = compare x y) ∧
    P19.cmp 2 3 ≠ compare 2 3 := by
  constructor
  · intro P a b x y _ _ hx hxa hy hyb
    have hrep : ∀ z : ℕ, z < P.p → P.into_repr (z * P.R % P.p) = z := by
      intro z hz
      unfold MontParams.into_repr
      have hch : z * P.R % P.p * P.rInv ≡ z [MOD P.p] := by
        calc z * P.R % P.p * P.rInv ≡ z * P.R * P.rInv [MOD P.p] :=
              Nat.ModEq.mul_right _ (Nat.mod_modEq _ _)
          _ ≡ z [MOD P.p] := P.mul_R_rInv_modeq z
      calc z * P.R % P.p * P.rInv % P.p = z % P.p := hch
        _ = z := Nat.mod_eq_of_lt hz
    unfold MontParams.cmp
    rw [← hxa, ← hyb, hrep x hx, hrep y hy]
  · decide

/-- Witness for C10: in the 19-element field (`R = 17`), the elements
representing 2 and 3 have stored values 15 and 13, and `cmp` orders them
as `compare 2 3`. -/
theorem c10_cmp_witness :
    P19.is_valid 15 ∧ P19.is_valid 13 ∧ P19.cmp 15 13 = compare 2 3 :=
  ⟨by decide, by decide,
    c10_cmp.1 P19 15 13 2 3 (by decide) (by decide) (by decide) (by decide)
      (by decide) (by decide)⟩

/-! ## The characteristic-mod-6 gate: correctness -/

theorem tmod3_bounds (x : ℤ) (h1 : -3 ≤ x) (h2 : x ≤ 3) :
    -2 ≤ x.tmod 3 ∧ x.tmod 3 ≤ 2 := by
  interval_cases x <;> decide

theorem tmod3_modeq (x : ℤ) : x.tmod 3 ≡ x [ZMOD 3] := by
  have h := Int.tdiv_add_tmod x 3
  exact Int.modEq_of_dvd ⟨x.tdiv 3, by omega⟩

/-- The inner 64-bit loop of the gate: starting from an accumulator in
`[-2, 2]`, the result stays in `[-2, 2]` and is congruent to
`acc + (limb mod 2^n)` modulo 3 — the alternating signs match the powers
of two because `2 ≡ -1 (mod 3)`. -/
theorem innerFold_spec (limb : ℕ) :
    ∀ (n : ℕ) (acc : ℤ), -2 ≤ acc → acc ≤ 2 →
      (-2 ≤ (List.range n).foldl (bitStep limb) acc ∧
        (List.range n).foldl (bitStep limb) acc ≤ 2) ∧
      (List.range n).foldl (bitStep limb) acc ≡ acc + (limb % 2 ^ n : ℕ) [ZMOD 3] := by
  intro n
  induction n with
  | zero =>
    intro acc h1 h2
    simp only [List.range_zero, List.foldl_nil, pow_zero, Nat.mod_one]
    exact ⟨⟨h1, h2⟩, by simp⟩
  | succ n ih =>
    intro acc h1 h2
    obtain ⟨⟨hb1, hb2⟩, hcong⟩ := ih acc h1 h2
    rw [List.range_succ, List.foldl_append, List.foldl_cons, List.foldl_nil]
    set r := (List.range n).foldl (bitStep limb) acc with hr
    unfold bitStep
    set bit : ℕ := (limb >>> n) &&& 1 with hbit
    have hbit01 : bit = limb / 2 ^ n % 2 := by
      rw [hbit, Nat.shiftRight_eq_div_pow, Nat.and_one_is_mod]
    have hbitle : bit ≤ 1 := by
      rw [hbit01]
      omega
    set s : ℤ := if n % 2 = 0 then (bit : ℤ) else -(bit : ℤ) with hs
    have hsb : -1 ≤ s ∧ s ≤ 1 := by
      rw [hs]
      split <;> simp <;> omega
    have hbounds := tmod3_bounds (r + s) (by omega) (by omega)
    refine ⟨hbounds, ?_⟩
    have hstep : (r + s).tmod 3 ≡ r + s [ZMOD 3] := tmod3_modeq _
    have hpow : ((2 : ℤ)) ^ n ≡ (-1) ^ n [ZMOD 3] :=
      Int.ModEq.pow n (by decide)
    have hsmod : s ≡ (2 : ℤ) ^ n * bit [ZMOD 3] := by
      rw [hs]
      by_cases hpar : n % 2 = 0
      · rw [if_pos hpar]
        have hneg : ((-1 : ℤ)) ^ n = 1 := by
          rcases Nat.even_or_odd n with he | ho
          · exact Even.neg_one_pow he
          · exfalso
            have := Nat.odd_iff.mp ho
            omega
        calc (bit : ℤ) = 1 * bit := by ring
          _ = (-1 : ℤ) ^ n * bit := by rw [hneg]
          _ ≡ (2 : ℤ) ^ n * bit [ZMOD 3] := Int.ModEq.mul_right _ hpow.symm
      · rw [if_neg hpar]
        have hneg : ((-1 : ℤ)) ^ n = -1 := by
          rcases Nat.even_or_odd n with he | ho
          · exfalso
            have := Nat.even_iff.mp he
            omega
          · exact Odd.neg_one_pow ho
        calc -(bit : ℤ) = (-1 : ℤ) * bit := by ring
          _ = (-1 : ℤ) ^ n * bit := by rw [hneg]
          _ ≡ (2 : ℤ) ^ n * bit [ZMOD 3] := Int.ModEq.mul_right _ hpow.symm
    have hsplit : (limb % 2 ^ (n + 1) : ℕ) = limb % 2 ^ n + 2 ^ n * bit := by
      rw [hbit01, pow_succ]
      exact Nat.mod_mul
    calc (r + s).tmod 3 ≡ r + s [ZMOD 3] := hstep
      _ ≡ (acc + (limb % 2 ^ n : ℕ)) + s [ZMOD 3] := Int.ModEq.add_right s hcong
      _ ≡ (acc + (limb % 2 ^ n : ℕ)) + (2 : ℤ) ^ n * bit [ZMOD 3] :=
          Int.ModEq.add_left _ hsmod
      _ = acc + ((limb % 2 ^ n : ℕ) + (2 : ℤ) ^ n * bit) := by ring
      _ = acc + ((limb % 2 ^ (n + 1) : ℕ) : ℤ) := by
          rw [hsplit]
          push_cast
          ring

/-- The outer limb loop of the gate: the accumulator stays in `[-2, 2]`
and is congruent to the little-endian value of the processed limbs modulo
3 (`2⁶⁴ ≡ 1 (mod 3)`). -/
theorem outerFold_spec :
    ∀ (ls : List ℕ), (∀ l ∈ ls, l < 2 ^ 64) → ∀ (acc : ℤ), -2 ≤ acc → acc ≤ 2 →
      (-2 ≤ ls.foldl (fun a limb => (List.range 64).foldl (bitStep limb) a) acc ∧
        ls.foldl (fun a limb => (List.range 64).foldl (bitStep limb) a) acc ≤ 2) ∧
      ls.foldl (fun a limb => (List.range 64).foldl (bitStep limb) a) acc ≡
        acc + (limbsVal ls : ℕ) [ZMOD 3] := by
  intro ls
  induction ls with
  | nil =>
    intro _ acc h1 h2
    simp only [List.foldl_nil, limbsVal]
    exact ⟨⟨h1, h2⟩, by simp⟩
  | cons l ls ih =>
    intro hlt acc h1 h2
    have hl : l < 2 ^ 64 := hlt l (List.mem_cons_self _ _)
    obtain ⟨⟨hb1, hb2⟩, hcong1⟩ := innerFold_spec l 64 acc h1 h2
    rw [List.foldl_cons]
    set r1 := (List.range 64).foldl (bitStep l) acc with hr1
    obtain ⟨hbb, hcong2⟩ := ih (fun x hx => hlt x (List.mem_cons_of_mem _ hx)) r1 hb1 hb2
    refine ⟨hbb, ?_⟩
    have hlmod : (l % 2 ^ 64 : ℕ) = l := Nat.mod_eq_of_lt hl
    rw [hlmod] at hcong1
    have hpow64 : ((2 : ℤ)) ^ 64 ≡ 1 [ZMOD 3] := by decide
    calc ls.foldl (fun a limb => (List.range 64).foldl (bitStep limb) a) r1
        ≡ r1 + (limbsVal ls : ℕ) [ZMOD 3] := hcong2
      _ ≡ (acc + (l : ℕ)) + (limbsVal ls : ℕ) [ZMOD 3] := Int.ModEq.add_right _ hcong1
      _ = acc + ((l : ℤ) + 1 * (limbsVal ls : ℕ)) := by ring
      _ ≡ acc + ((l : ℤ) + (2 : ℤ) ^ 64 * (limbsVal ls : ℕ)) [ZMOD 3] :=
          Int.ModEq.add_left _ (Int.ModEq.add_left _ (Int.ModEq.mul_right _ hpow64.symm))
      _ = acc + ((limbsVal (l :: ls) : ℕ) : ℤ) := by
          simp only [limbsVal]
          push_cast
          ring

/-- The gate decides exactly the condition "odd and not divisible by 3". -/
theorem gate_true_iff (c : List ℕ) (hne : c ≠ []) (hb : ∀ l ∈ c, l < 2 ^ 64) :
    characteristic_square_mod_6_is_one c = true ↔
      (limbsVal c % 2 = 1 ∧ limbsVal c % 3 ≠ 0) := by
  obtain ⟨l, ls, rfl⟩ : ∃ l ls, c = l :: ls := by
    cases c with
    | nil => exact absurd rfl hne
    | cons a t => exact ⟨a, t, rfl⟩
  obtain ⟨⟨hb1, hb2⟩, hcong⟩ := outerFold_spec (l :: ls) hb 0 (by norm_num) (by norm_num)
  unfold characteristic_square_mod_6_is_one
  set m3 := (l :: ls).foldl (fun a limb => (List.range 64).foldl (bitStep limb) a) 0 with hm3
  have hcong' : m3 ≡ (limbsVal (l :: ls) : ℕ) [ZMOD 3] := by
    simpa using hcong
  have hhead : (l :: ls).headI % 2 = limbsVal (l :: ls) % 2 := by
    simp only [List.headI, limbsVal]
    have h64 : 2 ^ 64 * limbsVal ls % 2 = 0 := by
      have hdvd : (2 : ℕ) ∣ 2 ^ 64 * limbsVal ls :=
        Dvd.dvd.mul_right (dvd_pow_self 2 (by norm_num)) _
      omega
    omega
  simp only [Bool.and_eq_true, decide_eq_true_eq]
  constructor
  · rintro ⟨hm, hpar⟩
    refine ⟨by omega, ?_⟩
    intro h3
    apply hm
    have hz : ((limbsVal (l :: ls) : ℤ)) % 3 = 0 := by
      omega
    have := hcong'
    unfold Int.ModEq at this
    omega
  · rintro ⟨hpar, h3⟩
    refine ⟨?_, by omega⟩
    intro hm0
    apply h3
    have := hcong'
    unfold Int.ModEq at this
    rw [hm0] at this
    omega

/-- Squares modulo 6: `v² ≡ 1 (mod 6)` exactly when `v` is odd and not
divisible by 3. -/
theorem sq_mod_six (v : ℕ) : v ^ 2 % 6 = 1 ↔ (v % 2 = 1 ∧ v % 3 ≠ 0) := by
  have h : v ^ 2 % 6 = (v % 6) ^ 2 % 6 := by
    rw [Nat.pow_mod]
  have h6 : v % 6 < 6 := Nat.mod_lt _ (by norm_num)
  rw [h]
  set r := v % 6 with hrdef
  have hr2 : v % 2 = r % 2 := by omega
  have hr3 : v % 3 = r % 3 := by omega
  rw [hr2, hr3]
  interval_cases r <;> simp

/-- C7: on every (nonempty) 64-bit limb slice, the gate returns `true`
exactly when the square of the little-endian value `v` of the slice
satisfies `v² mod 6 = 1` (equivalently: `v` odd and not divisible by 3),
the mod-3 part being computed by the alternating bit-sum test. -/
theorem c7_gate_correct (c : List ℕ) (hne : c ≠ []) (hb : ∀ l ∈ c, l < 2 ^ 64) :
    characteristic_square_mod_6_is_one c = true ↔ limbsVal c ^ 2 % 6 = 1 := by
  rw [gate_true_iff c hne hb, sq_mod_six]

set_option maxRecDepth 10000 in
/-- Witness for C7 on the single-limb slice `[5]`: the gate holds and
`5² = 25 ≡ 1 (mod 6)`. -/
theorem c7_gate_correct_witness :
    characteristic_square_mod_6_is_one [5] = true ∧ limbsVal [5] ^ 2 % 6 = 1 :=
  ⟨by decide, (c7_gate_correct [5] (by decide) (by norm_num)).mp (by decide)⟩

/-! ## Tower algebra: generic identities over a commutative base ring -/

theorem mul_fp6_by_nonresidue_eq (K : Type) [CommRing K] (ξ : K) (fe : Cubic K ξ) :
    mul_fp6_by_nonresidue K ξ fe = vgen K ξ * fe := by
  unfold mul_fp6_by_nonresidue mul_fp2_by_nonresidue vgen
  ext <;> simp

theorem twist_twist (K : Type) [CommRing K] (ξ : K) (s t : K) (a : F12 K ξ) :
    twist K ξ s (twist K ξ t a) = twist K ξ (s * t) a := by
  unfold twist mk6
  ext <;> simp <;> ring

theorem twist_neg_one (K : Type) [CommRing K] (ξ : K) (a : F12 K ξ) :
    twist K ξ (-1) a = conj K ξ a := by
  unfold twist conj mk6
  ext <;> simp <;> ring

/-- The adjugate identity for the cyclotomic analysis: if
`σ² + σ + 1 = 0`, the product of the `σ`- and `σ²`-twists of `a` is the
adjugate of `a` for the cubic extension `Fp12 / Fp4`. -/
theorem twist_key (K : Type) [CommRing K] (ξ σ : K) (hσ : σ ^ 2 + σ + 1 = 0)
    (a : F12 K ξ) :
    twist K ξ σ a * twist K ξ (σ ^ 2) a = adj K ξ a := by
  obtain ⟨⟨z0, z4, z3⟩, ⟨z2, z1, z5⟩⟩ := a
  unfold twist adj mk6
  ext
  · simp only [Quad.qmul_c0, Quad.qmul_c1, Cubic.mul_c0, Cubic.mul_c1, Cubic.mul_c2,
      Cubic.add_c0, Cubic.add_c1, Cubic.add_c2, Quad.qadd_c0, Quad.qadd_c1,
      Cubic.sub_c0, Cubic.sub_c1, Cubic.sub_c2, vgen]
    linear_combination (z3 * z4 * ξ - z3 * z4 * ξ * σ + z3 * z4 * ξ * σ ^ 3 - z3 * z4 * ξ * σ ^ 4 + z3 * z4 * ξ * σ ^ 6 - z3 * z4 * ξ * σ ^ 7 + z3 * z4 * ξ * σ ^ 8 + z2 * z5 * ξ - z2 * z5 * ξ * σ + z2 * z5 * ξ * σ ^ 3 - z2 * z5 * ξ * σ ^ 4 + z2 * z5 * ξ * σ ^ 6 - z2 * z5 * ξ * σ ^ 8 + z2 * z5 * ξ * σ ^ 9 - z1 ^ 2 * ξ + z1 ^ 2 * ξ * σ - z1 ^ 2 * ξ * σ ^ 3 + z1 ^ 2 * ξ * σ ^ 4 - z1 ^ 2 * ξ * σ ^ 6 + z1 ^ 2 * ξ * σ ^ 7) * hσ
  · simp only [Quad.qmul_c0, Quad.qmul_c1, Cubic.mul_c0, Cubic.mul_c1, Cubic.mul_c2,
      Cubic.add_c0, Cubic.add_c1, Cubic.add_c2, Quad.qadd_c0, Quad.qadd_c1,
      Cubic.sub_c0, Cubic.sub_c1, Cubic.sub_c2, vgen]
    linear_combination (-z3 ^ 2 * ξ + z3 ^ 2 * ξ * σ - z3 ^ 2 * ξ * σ ^ 3 + z3 ^ 2 * ξ * σ ^ 4 - z3 ^ 2 * ξ * σ ^ 6 + z3 ^ 2 * ξ * σ ^ 7 - z3 ^ 2 * ξ * σ ^ 9 + z3 ^ 2 * ξ * σ ^ 10 - z2 ^ 2 + z2 ^ 2 * σ + z1 * z5 * ξ - z1 * z5 * ξ * σ + z1 * z5 * ξ * σ ^ 3 - z1 * z5 * ξ * σ ^ 4 + z1 * z5 * ξ * σ ^ 6 - z1 * z5 * ξ * σ ^ 7 + z1 * z5 * ξ * σ ^ 9 - z1 * z5 * ξ * σ ^ 10 + z1 * z5 * ξ * σ ^ 11 + z0 * z4 - z0 * z4 * σ + z0 * z4 * σ ^ 2) * hσ
  · simp only [Quad.qmul_c0, Quad.qmul_c1, Cubic.mul_c0, Cubic.mul_c1, Cubic.mul_c2,
      Cubic.add_c0, Cubic.add_c1, Cubic.add_c2, Quad.qadd_c0, Quad.qadd_c1,
      Cubic.sub_c0, Cubic.sub_c1, Cubic.sub_c2, vgen]
    linear_combination (-z5 ^ 2 * ξ + z5 ^ 2 * ξ * σ - z5 ^ 2 * ξ * σ ^ 3 + z5 ^ 2 * ξ * σ ^ 4 - z5 ^ 2 * ξ * σ ^ 6 + z5 ^ 2 * ξ * σ ^ 7 - z5 ^ 2 * ξ * σ ^ 9 + z5 ^ 2 * ξ * σ ^ 10 - z5 ^ 2 * ξ * σ ^ 12 + z5 ^ 2 * ξ * σ ^ 13 - z4 ^ 2 + z4 ^ 2 * σ - z4 ^ 2 * σ ^ 3 + z4 ^ 2 * σ ^ 4 + z1 * z2 - z1 * z2 * σ + z1 * z2 * σ ^ 3 - z1 * z2 * σ ^ 4 + z1 * z2 * σ ^ 5 + z0 * z3 - z0 * z3 * σ + z0 * z3 * σ ^ 3 - z0 * z3 * σ ^ 5 + z0 * z3 * σ ^ 6) * hσ
  · simp only [Quad.qmul_c0, Quad.qmul_c1, Cubic.mul_c0, Cubic.mul_c1, Cubic.mul_c2,
      Cubic.add_c0, Cubic.add_c1, Cubic.add_c2, Quad.qadd_c0, Quad.qadd_c1,
      Cubic.sub_c0, Cubic.sub_c1, Cubic.sub_c2, vgen]
    linear_combination (-2 * z4 * z5 * ξ + 2 * z4 * z5 * ξ * σ - 2 * z4 * z5 * ξ * σ ^ 3 + 2 * z4 * z5 * ξ * σ ^ 4 - 2 * z4 * z5 * ξ * σ ^ 6 + 2 * z4 * z5 * ξ * σ ^ 7 - z4 * z5 * ξ * σ ^ 9 + z4 * z5 * ξ * σ ^ 10 + z1 * z3 * ξ - z1 * z3 * ξ * σ + z1 * z3 * ξ * σ ^ 3 - z1 * z3 * ξ * σ ^ 4 + z1 * z3 * ξ * σ ^ 6 - z1 * z3 * ξ * σ ^ 7 + z1 * z3 * ξ * σ ^ 9 + z0 * z2) * hσ
  · simp only [Quad.qmul_c0, Quad.qmul_c1, Cubic.mul_c0, Cubic.mul_c1, Cubic.mul_c2,
      Cubic.add_c0, Cubic.add_c1, Cubic.add_c2, Quad.qadd_c0, Quad.qadd_c1,
      Cubic.sub_c0, Cubic.sub_c1, Cubic.sub_c2, vgen]
    linear_combination (z3 * z5 * ξ - z3 * z5 * ξ * σ + z3 * z5 * ξ * σ ^ 3 - z3 * z5 * ξ * σ ^ 4 + z3 * z5 * ξ * σ ^ 6 - z3 * z5 * ξ * σ ^ 7 + z3 * z5 * ξ * σ ^ 9 - z3 * z5 * ξ * σ ^ 10 + z3 * z5 * ξ * σ ^ 12 + z2 * z4 - z2 * z4 * σ + z2 * z4 * σ ^ 3 - 2 * z0 * z1 + 2 * z0 * z1 * σ - z0 * z1 * σ ^ 3 + z0 * z1 * σ ^ 4) * hσ
  · simp only [Quad.qmul_c0, Quad.qmul_c1, Cubic.mul_c0, Cubic.mul_c1, Cubic.mul_c2,
      Cubic.add_c0, Cubic.add_c1, Cubic.add_c2, Quad.qadd_c0, Quad.qadd_c1,
      Cubic.sub_c0, Cubic.sub_c1, Cubic.sub_c2, vgen]
    linear_combination (-2 * z2 * z3 + 2 * z2 * z3 * σ - 2 * z2 * z3 * σ ^ 3 + 2 * z2 * z3 * σ ^ 4 - z2 * z3 * σ ^ 6 + z2 * z3 * σ ^ 7 + z1 * z4 - z1 * z4 * σ + z1 * z4 * σ ^ 3 - z1 * z4 * σ ^ 4 + z1 * z4 * σ ^ 6 + z0 * z5 - z0 * z5 * σ + z0 * z5 * σ ^ 3 - z0 * z5 * σ ^ 4 + z0 * z5 * σ ^ 5 - z0 * z5 * σ ^ 7 + z0 * z5 * σ ^ 8) * hσ

/-- The Granger–Scott recombination computes the true square on every
element whose conjugate equals its adjugate (the algebraic content of
membership in the cyclotomic subgroup). -/
theorem cyclotomic_body_eq_square (K : Type) [CommRing K] (ξ : K) (a : F12 K ξ)
    (h : conj K ξ a = adj K ξ a) :
    cyclotomic_square_body K ξ a = a * a := by
  obtain ⟨⟨z0, z4, z3⟩, ⟨z2, z1, z5⟩⟩ := a
  have h00 := congrArg (fun x : F12 K ξ => x.c0.c0) h
  have h01 := congrArg (fun x : F12 K ξ => x.c0.c1) h
  have h02 := congrArg (fun x : F12 K ξ => x.c0.c2) h
  have h10 := congrArg (fun x : F12 K ξ => x.c1.c0) h
  have h11 := congrArg (fun x : F12 K ξ => x.c1.c1) h
  have h12 := congrArg (fun x : F12 K ξ => x.c1.c2) h
  simp only [conj, adj, mk6, Cubic.neg_c0, Cubic.neg_c1, Cubic.neg_c2, Quad.qneg_c1]
    at h00 h01 h02 h10 h11 h12
  simp only [cyclotomic_square_body, mul_fp2_by_nonresidue]
  ext
  · simp only [Quad.qmul_c0, Quad.qmul_c1, Cubic.mul_c0, Cubic.mul_c1, Cubic.mul_c2,
      Cubic.add_c0, Cubic.add_c1, Cubic.add_c2, Quad.qadd_c0, Quad.qadd_c1,
      Cubic.sub_c0, Cubic.sub_c1, Cubic.sub_c2, vgen]
    linear_combination (-2 : K) * h00
  · simp only [Quad.qmul_c0, Quad.qmul_c1, Cubic.mul_c0, Cubic.mul_c1, Cubic.mul_c2,
      Cubic.add_c0, Cubic.add_c1, Cubic.add_c2, Quad.qadd_c0, Quad.qadd_c1,
      Cubic.sub_c0, Cubic.sub_c1, Cubic.sub_c2, vgen]
    linear_combination (-2 : K) * h01
  · simp only [Quad.qmul_c0, Quad.qmul_c1, Cubic.mul_c0, Cubic.mul_c1, Cubic.mul_c2,
      Cubic.add_c0, Cubic.add_c1, Cubic.add_c2, Quad.qadd_c0, Quad.qadd_c1,
      Cubic.sub_c0, Cubic.sub_c1, Cubic.sub_c2, vgen]
    linear_combination (-2 : K) * h02
  · simp only [Quad.qmul_c0, Quad.qmul_c1, Cubic.mul_c0, Cubic.mul_c1, Cubic.mul_c2,
      Cubic.add_c0, Cubic.add_c1, Cubic.add_c2, Quad.qadd_c0, Quad.qadd_c1,
      Cubic.sub_c0, Cubic.sub_c1, Cubic.sub_c2, vgen]
    linear_combination (-2 : K) * h10
  · simp only [Quad.qmul_c0, Quad.qmul_c1, Cubic.mul_c0, Cubic.mul_c1, Cubic.mul_c2,
      Cubic.add_c0, Cubic.add_c1, Cubic.add_c2, Quad.qadd_c0, Quad.qadd_c1,
      Cubic.sub_c0, Cubic.sub_c1, Cubic.sub_c2, vgen]
    linear_combination (-2 : K) * h11
  · simp only [Quad.qmul_c0, Quad.qmul_c1, Cubic.mul_c0, Cubic.mul_c1, Cubic.mul_c2,
      Cubic.add_c0, Cubic.add_c1, Cubic.add_c2, Quad.qadd_c0, Quad.qadd_c1,
      Cubic.sub_c0, Cubic.sub_c1, Cubic.sub_c2, vgen]
    linear_combination (-2 : K) * h12

theorem e2_one (K : Type) [CommRing K] (ξ : K) : e2 K ξ 1 = 1 := by
  unfold e2
  ext <;> simp

theorem e2_mul (K : Type) [CommRing K] (ξ : K) (x y : K) :
    e2 K ξ (x * y) = e2 K ξ x * e2 K ξ y := by
  unfold e2
  ext <;> simp

theorem e2_pow (K : Type) [CommRing K] (ξ : K) (x : K) (n : ℕ) :
    e2 K ξ (x ^ n) = e2 K ξ x ^ n := by
  induction n with
  | zero => simp [pow_zero, e2_one]
  | succ k ih => rw [pow_succ, pow_succ, e2_mul, ih]

theorem wGen_pow_six (K : Type) [CommRing K] (ξ : K) :
    wGen K ξ ^ 6 = e2 K ξ ξ := by
  unfold wGen e2
  ext <;> simp [pow_succ, vgen] <;> ring

/-- Every `Fp12` element decomposes over the `w`-power basis with `K`
(that is, `Fp2`) coefficients in the source's `z`-labelling. -/
theorem decomp (K : Type) [CommRing K] (ξ : K) (a : F12 K ξ) :
    a = e2 K ξ a.c0.c0 + e2 K ξ a.c1.c0 * wGen K ξ + e2 K ξ a.c0.c1 * wGen K ξ ^ 2 +
      e2 K ξ a.c1.c1 * wGen K ξ ^ 3 + e2 K ξ a.c0.c2 * wGen K ξ ^ 4 +
      e2 K ξ a.c1.c2 * wGen K ξ ^ 5 := by
  unfold e2 wGen
  ext <;> simp [pow_succ, vgen] <;> ring

/-- The coordinate form of `twist` as a decomposition with scaled
coefficients. -/
theorem twist_decomp (K : Type) [CommRing K] (ξ : K) (s : K) (a : F12 K ξ) :
    twist K ξ s a =
      e2 K ξ a.c0.c0 + e2 K ξ (s * a.c1.c0) * wGen K ξ +
      e2 K ξ (s ^ 2 * a.c0.c1) * wGen K ξ ^ 2 +
      e2 K ξ (s ^ 3 * a.c1.c1) * wGen K ξ ^ 3 +
      e2 K ξ (s ^ 4 * a.c0.c2) * wGen K ξ ^ 4 +
      e2 K ξ (s ^ 5 * a.c1.c2) * wGen K ξ ^ 5 := by
  unfold twist mk6 e2 wGen
  ext <;> simp [pow_succ, vgen] <;> ring

/-! ## Frobenius action on the tower over the prime field -/

theorem quad_base_pow {R : Type} [CommRing R] {nr : R} (x : R) (n : ℕ) :
    (Quad.mk x 0 : Quad R nr) ^ n = Quad.mk (x ^ n) 0 := by
  induction n with
  | zero => ext <;> simp
  | succ k ih =>
    rw [pow_succ, pow_succ, ih]
    ext <;> simp

theorem f2_u_sq (p : ℕ) (α : ZMod p) :
    (Quad.mk 0 1 : Quad (ZMod p) α) ^ 2 = Quad.mk α 0 := by
  rw [pow_two]
  ext <;> simp

/-- The `p`-power map on the `Fp2` model is coordinate conjugation: it
fixes `c0` and negates `c1` (using that `α` is a quadratic nonresidue, via
Euler's criterion `α^((p-1)/2) = -1`). -/
theorem f2_pow_p (p : ℕ) [Fact p.Prime] (α : ZMod p)
    (hα : α ^ ((p - 1) / 2) = -1) (hodd : p % 2 = 1) (z : Quad (ZMod p) α) :
    z ^ p = Quad.mk z.c0 (-z.c1) := by
  have hz : z = Quad.mk z.c0 0 + Quad.mk z.c1 0 * Quad.mk 0 1 := by
    ext <;> simp
  have hup : (Quad.mk 0 1 : Quad (ZMod p) α) ^ p = Quad.mk 0 (-1) := by
    obtain ⟨k, hk⟩ : ∃ k, p = 2 * k + 1 := ⟨p / 2, by omega⟩
    have hk2 : k = (p - 1) / 2 := by omega
    have h1 : (Quad.mk 0 1 : Quad (ZMod p) α) ^ p =
        (Quad.mk 0 1 : Quad (ZMod p) α) ^ (2 * k + 1) :=
      congrArg (fun n => (Quad.mk 0 1 : Quad (ZMod p) α) ^ n) hk
    rw [h1, pow_succ, pow_mul, f2_u_sq, quad_base_pow, hk2, hα]
    ext <;> simp
  calc z ^ p = (Quad.mk z.c0 0 + Quad.mk z.c1 0 * Quad.mk 0 1) ^ p := by rw [← hz]
    _ = (Quad.mk z.c0 0) ^ p + (Quad.mk z.c1 0 * Quad.mk 0 1) ^ p := add_pow_char _ _ _
    _ = (Quad.mk z.c0 0) ^ p + (Quad.mk z.c1 0) ^ p * (Quad.mk 0 1) ^ p := by
        rw [mul_pow]
    _ = Quad.mk (z.c0 ^ p) 0 + Quad.mk (z.c1 ^ p) 0 * Quad.mk 0 (-1) := by
        rw [quad_base_pow, quad_base_pow, hup]
    _ = Quad.mk z.c0 (-z.c1) := by
        rw [ZMod.pow_card, ZMod.pow_card]
        ext <;> simp

theorem f2_pow_p2 (p : ℕ) [Fact p.Prime] (α : ZMod p)
    (hα : α ^ ((p - 1) / 2) = -1) (hodd : p % 2 = 1) (z : Quad (ZMod p) α) :
    z ^ p ^ 2 = z := by
  have h : p ^ 2 = p * p := by ring
  rw [h, pow_mul, f2_pow_p p α hα hodd, f2_pow_p p α hα hodd]
  ext <;> simp

/-- Nonzero elements of the `Fp2` model have nonzero norm
`c0² - α·c1²` (here `α` being a nonresidue is essential). -/
theorem f2_norm_ne_zero (p : ℕ) [Fact p.Prime] (α : ZMod p)
    (hα : α ^ ((p - 1) / 2) = -1) (hodd : p % 2 = 1)
    {z : Quad (ZMod p) α} (hz : z ≠ 0) : z.c0 ^ 2 - α * z.c1 ^ 2 ≠ 0 := by
  intro h
  have hp2 := (Fact.out : p.Prime).two_le
  by_cases hc1 : z.c1 = 0
  · apply hz
    have hc0 : z.c0 ^ 2 = 0 := by
      rw [hc1] at h
      simpa using h
    have hc0' : z.c0 = 0 := sq_eq_zero_iff.mp hc0
    ext <;> simp [hc0', hc1]
  · have hα' : α = (z.c0 * z.c1⁻¹) ^ 2 := by
      field_simp
      linear_combination -h
    set t := z.c0 * z.c1⁻¹ with ht
    by_cases ht0 : t = 0
    · rw [ht0] at hα'
      have hα0 : α = 0 := by simpa using hα'
      rw [hα0, zero_pow (by omega : (p - 1) / 2 ≠ 0)] at hα
      have h1 : (1 : ZMod p) = 0 := by linear_combination hα
      exact one_ne_zero h1
    · have hft : t ^ (p - 1) = 1 := ZMod.pow_card_sub_one_eq_one ht0
      have h2 : α ^ ((p - 1) / 2) = 1 := by
        rw [hα', ← pow_mul]
        have he : 2 * ((p - 1) / 2) = p - 1 := by omega
        rw [he, hft]
      rw [hα] at h2
      have h3 : ((2 : ℕ) : ZMod p) = 0 := by
        push_cast
        linear_combination -h2
      have h4 : p ∣ 2 := (CharP.cast_eq_zero_iff (ZMod p) p 2).mp h3
      have h5 : p ≤ 2 := Nat.le_of_dvd (by norm_num) h4
      omega

theorem f2_mul_eq_zero (p : ℕ) [Fact p.Prime] (α : ZMod p)
    (hα : α ^ ((p - 1) / 2) = -1) (hodd : p % 2 = 1)
    {x y : Quad (ZMod p) α} (h : x * y = 0) : x = 0 ∨ y = 0 := by
  by_contra hc
  push_neg at hc
  obtain ⟨hx, hy⟩ := hc
  have hn : (x * y).c0 ^ 2 - α * (x * y).c1 ^ 2 =
      (x.c0 ^ 2 - α * x.c1 ^ 2) * (y.c0 ^ 2 - α * y.c1 ^ 2) := by
    simp only [Quad.qmul_c0, Quad.qmul_c1]
    ring
  rw [h] at hn
  simp only [Quad.qzero_c0, Quad.qzero_c1] at hn
  have hn' : (x.c0 ^ 2 - α * x.c1 ^ 2) * (y.c0 ^ 2 - α * y.c1 ^ 2) = 0 := by
    rw [← hn]
    ring
  rcases mul_eq_zero.mp hn' with h1 | h2
  · exact f2_norm_ne_zero p α hα hodd hx h1
  · exact f2_norm_ne_zero p α hα hodd hy h2

theorem p_sq_mod_six (p : ℕ) (hodd : p % 2 = 1) (h3 : p % 3 ≠ 0) : p ^ 2 % 6 = 1 := by
  have hr : p % 6 = 1 ∨ p % 6 = 5 := by omega
  have hmod : p ^ 2 % 6 = (p % 6) ^ 2 % 6 := by
    rw [Nat.pow_mod]
  rcases hr with h | h <;> rw [hmod, h] <;> norm_num

/-- The map `x ↦ x^(p²)` on the `Fp12` tower model is the `ρ`-twist with
`ρ = ξ^((p²-1)/6)`: it fixes the `Fp2` coefficients and scales the `i`-th
`w`-power coefficient by `ρ^i`. -/
theorem pow_p2_eq_twist (p : ℕ) [Fact p.Prime] (α : ZMod p)
    (hα : α ^ ((p - 1) / 2) = -1) (hodd : p % 2 = 1) (h3 : p % 3 ≠ 0)
    (ξ : Quad (ZMod p) α) (a : F12 (Quad (ZMod p) α) ξ) :
    a ^ p ^ 2 = twist (Quad (ZMod p) α) ξ (ξ ^ ((p ^ 2 - 1) / 6)) a := by
  have hp2 := (Fact.out : p.Prime).two_le
  have hmod := p_sq_mod_six p hodd h3
  have hk : p ^ 2 = 6 * ((p ^ 2 - 1) / 6) + 1 := by omega
  have hw : wGen (Quad (ZMod p) α) ξ ^ p ^ 2 =
      e2 (Quad (ZMod p) α) ξ (ξ ^ ((p ^ 2 - 1) / 6)) * wGen (Quad (ZMod p) α) ξ := by
    have h1 : wGen (Quad (ZMod p) α) ξ ^ p ^ 2 =
        wGen (Quad (ZMod p) α) ξ ^ (6 * ((p ^ 2 - 1) / 6) + 1) :=
      congrArg (fun n => wGen (Quad (ZMod p) α) ξ ^ n) hk
    rw [h1, pow_succ, pow_mul, wGen_pow_six, ← e2_pow]
  have hterm : ∀ (z : Quad (ZMod p) α) (i : ℕ),
      (e2 (Quad (ZMod p) α) ξ z * wGen (Quad (ZMod p) α) ξ ^ i) ^ p ^ 2 =
        e2 (Quad (ZMod p) α) ξ ((ξ ^ ((p ^ 2 - 1) / 6)) ^ i * z) *
          wGen (Quad (ZMod p) α) ξ ^ i := by
    intro z i
    calc (e2 (Quad (ZMod p) α) ξ z * wGen (Quad (ZMod p) α) ξ ^ i) ^ p ^ 2
        = (e2 (Quad (ZMod p) α) ξ z) ^ p ^ 2 *
            (wGen (Quad (ZMod p) α) ξ ^ i) ^ p ^ 2 := mul_pow _ _ _
      _ = e2 (Quad (ZMod p) α) ξ z * (wGen (Quad (ZMod p) α) ξ ^ p ^ 2) ^ i := by
          rw [← e2_pow, f2_pow_p2 p α hα hodd, pow_right_comm]
      _ = e2 (Quad (ZMod p) α) ξ z *
            ((e2 (Quad (ZMod p) α) ξ (ξ ^ ((p ^ 2 - 1) / 6))) ^ i *
              wGen (Quad (ZMod p) α) ξ ^ i) := by rw [hw, mul_pow]
      _ = e2 (Quad (ZMod p) α) ξ ((ξ ^ ((p ^ 2 - 1) / 6)) ^ i * z) *
            wGen (Quad (ZMod p) α) ξ ^ i := by
          rw [← e2_pow, ← mul_assoc, ← e2_mul, mul_comm z _]
  have ht0 : (e2 (Quad (ZMod p) α) ξ a.c0.c0) ^ p ^ 2 =
      e2 (Quad (ZMod p) α) ξ a.c0.c0 := by
    rw [← e2_pow, f2_pow_p2 p α hα hodd]
  have ht1 : (e2 (Quad (ZMod p) α) ξ a.c1.c0 * wGen (Quad (ZMod p) α) ξ) ^ p ^ 2 =
      e2 (Quad (ZMod p) α) ξ (ξ ^ ((p ^ 2 - 1) / 6) * a.c1.c0) *
        wGen (Quad (ZMod p) α) ξ := by
    have h := hterm a.c1.c0 1
    simpa using h
  calc a ^ p ^ 2
      = (e2 (Quad (ZMod p) α) ξ a.c0.c0 +
          e2 (Quad (ZMod p) α) ξ a.c1.c0 * wGen (Quad (ZMod p) α) ξ +
          e2 (Quad (ZMod p) α) ξ a.c0.c1 * wGen (Quad (ZMod p) α) ξ ^ 2 +
          e2 (Quad (ZMod p) α) ξ a.c1.c1 * wGen (Quad (ZMod p) α) ξ ^ 3 +
          e2 (Quad (ZMod p) α) ξ a.c0.c2 * wGen (Quad (ZMod p) α) ξ ^ 4 +
          e2 (Quad (ZMod p) α) ξ a.c1.c2 * wGen (Quad (ZMod p) α) ξ ^ 5) ^ p ^ 2 := by
        rw [← decomp]
    _ = (e2 (Quad (ZMod p) α) ξ a.c0.c0) ^ p ^ 2 +
          (e2 (Quad (ZMod p) α) ξ a.c1.c0 * wGen (Quad (ZMod p) α) ξ) ^ p ^ 2 +
          (e2 (Quad (ZMod p) α) ξ a.c0.c1 * wGen (Quad (ZMod p) α) ξ ^ 2) ^ p ^ 2 +
          (e2 (Quad (ZMod p) α) ξ a.c1.c1 * wGen (Quad (ZMod p) α) ξ ^ 3) ^ p ^ 2 +
          (e2 (Quad (ZMod p) α) ξ a.c0.c2 * wGen (Quad (ZMod p) α) ξ ^ 4) ^ p ^ 2 +
          (e2 (Quad (ZMod p) α) ξ a.c1.c2 * wGen (Quad (ZMod p) α) ξ ^ 5) ^ p ^ 2 := by
        rw [add_pow_char_pow, add_pow_char_pow, add_pow_char_pow, add_pow_char_pow,
          add_pow_char_pow]
    _ = twist (Quad (ZMod p) α) ξ (ξ ^ ((p ^ 2 - 1) / 6)) a := by
        rw [ht0, ht1, hterm a.c0.c1 2, hterm a.c1.c1 3, hterm a.c0.c2 4, hterm a.c1.c2 5,
          twist_decomp]

/-- C2: if the characteristic mod-6 gate is true and `a` lies in the
cyclotomic subgroup (`a^(p⁴-p²+1) = 1`), then `cyclotomic_square a` equals
the generic `square a`; and if the gate is false, `cyclotomic_square a`
equals `square a` unconditionally through the fallback branch.  The limb
slice `L` is the characteristic slice handed to the gate, `α` and `ξ` are
the quadratic/cubic tower nonresidues (with their nonresidue properties
stated through Euler's criterion). -/
theorem c2_cyclotomic_square (p : ℕ) (hp : p.Prime) (α : ZMod p)
    (ξ : Quad (ZMod p) α) (L : List ℕ) (hL : limbsVal L = p) (hne : L ≠ [])
    (hb : ∀ l ∈ L, l < 2 ^ 64)
    (hα : α ^ ((p - 1) / 2) = -1)
    (hξ2 : ξ ^ ((p ^ 2 - 1) / 2) = -1)
    (hξ3 : ξ ^ ((p ^ 2 - 1) / 3) ≠ 1)
    (a : F12 (Quad (ZMod p) α) ξ) :
    (characteristic_square_mod_6_is_one L = true →
      a ^ (p ^ 4 - p ^ 2 + 1) = 1 →
      cyclotomic_square (Quad (ZMod p) α) ξ L a = Quad.square a) ∧
    (characteristic_square_mod_6_is_one L = false →
      cyclotomic_square (Quad (ZMod p) α) ξ L a = Quad.square a) := by
  haveI : Fact p.Prime := ⟨hp⟩
  constructor
  · intro hgate hm
    obtain ⟨hodd, h3⟩ := by
      have h := (gate_true_iff L hne hb).mp hgate
      rw [hL] at h
      exact h
    have hp2 := hp.two_le
    have hmod := p_sq_mod_six p hodd h3
    set ρ := ξ ^ ((p ^ 2 - 1) / 6) with hρ
    set σ := ξ ^ ((p ^ 2 - 1) / 3) with hσdef
    have hσρ : ρ ^ 2 = σ := by
      rw [hρ, hσdef, ← pow_mul]
      congr 1
      omega
    have hρ3 : ρ ^ 3 = -1 := by
      rw [hρ, ← pow_mul]
      have he : (p ^ 2 - 1) / 6 * 3 = (p ^ 2 - 1) / 2 := by omega
      rw [he, hξ2]
    have hσ3 : σ ^ 3 = 1 := by
      rw [← hσρ, ← pow_mul, mul_comm, pow_mul, hρ3]
      ring
    have hσsum : σ ^ 2 + σ + 1 = 0 := by
      have hfac : (σ - 1) * (σ ^ 2 + σ + 1) = 0 := by linear_combination hσ3
      rcases f2_mul_eq_zero p α hα hodd hfac with h | h
      · exfalso
        apply hξ3
        linear_combination h
      · exact h
    have hq : ∀ x : F12 (Quad (ZMod p) α) ξ, x ^ p ^ 2 = twist (Quad (ZMod p) α) ξ ρ x := fun x =>
      pow_p2_eq_twist p α hα hodd h3 ξ x
    have hq4 : ∀ x : F12 (Quad (ZMod p) α) ξ, x ^ p ^ 4 = twist (Quad (ZMod p) α) ξ σ x := by
      intro x
      have he : p ^ 4 = p ^ 2 * p ^ 2 := by ring
      calc x ^ p ^ 4 = (x ^ p ^ 2) ^ p ^ 2 := by rw [he, pow_mul]
        _ = twist (Quad (ZMod p) α) ξ ρ (twist (Quad (ZMod p) α) ξ ρ x) := by rw [hq, hq]
        _ = twist (Quad (ZMod p) α) ξ (ρ * ρ) x := twist_twist (Quad (ZMod p) α) ξ ρ ρ x
        _ = twist (Quad (ZMod p) α) ξ σ x := by rw [← pow_two, hσρ]
    have hq6 : a ^ p ^ 6 = conj (Quad (ZMod p) α) ξ a := by
      have he : p ^ 6 = p ^ 4 * p ^ 2 := by ring
      calc a ^ p ^ 6 = (a ^ p ^ 4) ^ p ^ 2 := by rw [he, pow_mul]
        _ = twist (Quad (ZMod p) α) ξ ρ (twist (Quad (ZMod p) α) ξ σ a) := by rw [hq4, hq]
        _ = twist (Quad (ZMod p) α) ξ (ρ * σ) a := twist_twist (Quad (ZMod p) α) ξ ρ σ a
        _ = conj (Quad (ZMod p) α) ξ a := by
            have hρσ : ρ * σ = -1 := by
              rw [← hσρ]
              calc ρ * ρ ^ 2 = ρ ^ 3 := by ring
                _ = -1 := hρ3
            rw [hρσ, twist_neg_one]
    have hq8 : a ^ p ^ 8 = twist (Quad (ZMod p) α) ξ (σ ^ 2) a := by
      have he : p ^ 8 = p ^ 4 * p ^ 4 := by ring
      calc a ^ p ^ 8 = (a ^ p ^ 4) ^ p ^ 4 := by rw [he, pow_mul]
        _ = twist (Quad (ZMod p) α) ξ σ (twist (Quad (ZMod p) α) ξ σ a) := by rw [hq4, hq4]
        _ = twist (Quad (ZMod p) α) ξ (σ * σ) a := twist_twist (Quad (ZMod p) α) ξ σ σ a
        _ = twist (Quad (ZMod p) α) ξ (σ ^ 2) a := by rw [← pow_two]
    have hle : p ^ 2 ≤ p ^ 4 := Nat.pow_le_pow_right hp.pos (by omega)
    have hid1 : (p ^ 4 - p ^ 2 + 1) * (p ^ 2 + 1) = p ^ 6 + 1 := by
      zify [hle]
      ring
    have hid2 : (p ^ 4 - p ^ 2 + 1) * (p ^ 4 + p ^ 2 + 1) = p ^ 4 + p ^ 8 + 1 := by
      zify [hle]
      ring
    have hU : conj (Quad (ZMod p) α) ξ a * a = 1 := by
      calc conj (Quad (ZMod p) α) ξ a * a = a ^ p ^ 6 * a ^ 1 := by rw [hq6, pow_one]
        _ = a ^ (p ^ 6 + 1) := by rw [← pow_add]
        _ = a ^ ((p ^ 4 - p ^ 2 + 1) * (p ^ 2 + 1)) := by rw [hid1]
        _ = (a ^ (p ^ 4 - p ^ 2 + 1)) ^ (p ^ 2 + 1) := by rw [pow_mul]
        _ = 1 := by rw [hm, one_pow]
    have hN : adj (Quad (ZMod p) α) ξ a * a = 1 := by
      calc adj (Quad (ZMod p) α) ξ a * a = (twist (Quad (ZMod p) α) ξ σ a * twist (Quad (ZMod p) α) ξ (σ ^ 2) a) * a := by
            rw [twist_key (Quad (ZMod p) α) ξ σ hσsum a]
        _ = (a ^ p ^ 4 * a ^ p ^ 8) * a ^ 1 := by rw [hq4, hq8, pow_one]
        _ = a ^ (p ^ 4 + p ^ 8 + 1) := by rw [← pow_add, ← pow_add]
        _ = a ^ ((p ^ 4 - p ^ 2 + 1) * (p ^ 4 + p ^ 2 + 1)) := by rw [hid2]
        _ = (a ^ (p ^ 4 - p ^ 2 + 1)) ^ (p ^ 4 + p ^ 2 + 1) := by rw [pow_mul]
        _ = 1 := by rw [hm, one_pow]
    have hca : conj (Quad (ZMod p) α) ξ a = adj (Quad (ZMod p) α) ξ a := by
      calc conj (Quad (ZMod p) α) ξ a = conj (Quad (ZMod p) α) ξ a * 1 := (mul_one _).symm
        _ = conj (Quad (ZMod p) α) ξ a * (adj (Quad (ZMod p) α) ξ a * a) := by rw [hN]
        _ = adj (Quad (ZMod p) α) ξ a * (conj (Quad (ZMod p) α) ξ a * a) := by ring
        _ = adj (Quad (ZMod p) α) ξ a * 1 := by rw [hU]
        _ = adj (Quad (ZMod p) α) ξ a := mul_one _
    unfold cyclotomic_square
    rw [if_pos hgate, cyclotomic_body_eq_square (Quad (ZMod p) α) ξ a hca, Quad.square_eq]
  · intro hgate
    unfold cyclotomic_square
    rw [if_neg (by rw [hgate]; simp)]

set_option maxRecDepth 100000 in
/-- Witness for C2 at `p = 5` with `α = 2` (nonsquare mod 5) and
`ξ = 1 + 2u` (nonsquare and noncube in `GF(25)`): the gate holds on the
limb slice `[5]`, the identity element lies in the cyclotomic subgroup,
and its Granger–Scott square agrees with the generic square. -/
theorem c2_cyclotomic_square_witness :
    characteristic_square_mod_6_is_one [5] = true ∧
    (1 : F12 (Quad (ZMod 5) 2) (Quad.mk 1 2)) ^ (5 ^ 4 - 5 ^ 2 + 1) = 1 ∧
    cyclotomic_square (Quad (ZMod 5) 2) (Quad.mk 1 2) [5] 1 = Quad.square 1 :=
  ⟨by decide, one_pow _,
   (c2_cyclotomic_square 5 (by norm_num) 2 (Quad.mk 1 2) [5] (by decide) (by decide)
     (by decide) (by decide) (by decide) (by decide) 1).1 (by decide) (one_pow _)⟩

end Ginger

